import Mathlib

/-!
Verification of the sfcache repository (codeGROOVE-dev/sfcache).

The repository contains two generations of the same cache design:

* package sfcache — the sharded S3-FIFO memory tier (file with
  `shard`, `entryList`, `s3fifo`) and the two-tier coordinator
  (`PersistentCache`, `MemoryCache`);
* package bdcache — the earlier, unsharded variant (`s3fifo` over
  `container/list`, and the `Cache` coordinator in cache.go).

This file gives a shallow embedding of both memory tiers and of the
coordinators, and proves the specification claims about them.

Modelling conventions:

* A Go `map[K]*entry` is an association list `List (K × α)`; lookup
  returns the first binding, update rewrites every binding of the key
  (these coincide because the code never creates a duplicate key), and
  delete removes every binding of the key.
* The intrusive queues hold pointers to entries; since an entry is
  reachable by its key through the map, a queue is modelled as the list
  of keys of its nodes, oldest (front) first.  Mutating an entry through
  a queue node and through the map is the same mutation, exactly as the
  shared pointer makes it in Go.
* `time.Time` values are their `UnixNano` value as an `Int`; the zero
  time is 0, matching `timeToNano` in the source.  `time.Now()` is an
  explicit `now` parameter.
* Fallible results are `Except String α`; errors carry the wrapping
  prefixes used by the source (`fmt.Errorf`).
-/

namespace Sfcache

variable {K : Type} [DecidableEq K] {V : Type} {α : Type} {β : Type}

/-- Lookup of the binding of a key in an association list (a Go map read):
the first binding wins. -/
def mapFind? : List (K × α) → K → Option α
  | [], _ => none
  | (k', v) :: m, k => if k' = k then some v else mapFind? m k

/-- Pointwise update of every binding of a key (a Go write through the
entry pointer: the single binding of the key is mutated in place). -/
def mapUpdate : List (K × α) → K → (α → α) → List (K × α)
  | [], _, _ => []
  | (k', v) :: m, k, f => (k', if k' = k then f v else v) :: mapUpdate m k f

/-- Removal of every binding of a key (a Go `delete(m, k)`). -/
def mapErase : List (K × α) → K → List (K × α)
  | [], _ => []
  | (k', v) :: m, k => if k' = k then mapErase m k else (k', v) :: mapErase m k

/-- Removal of the first occurrence of an element from a list of keys;
models `list.remove(node)` on the unique node of that key. -/
def removeKey : List K → K → List K
  | [], _ => []
  | x :: xs, k => if x = k then xs else x :: removeKey xs k

/-- Removal of every occurrence of an element from a list of keys. -/
def filterNe : List K → K → List K
  | [], _ => []
  | x :: xs, k => if x = k then filterNe xs k else x :: filterNe xs k

/-- Boolean membership in a list of keys (a Go map-of-struct{} test). -/
def memKey : List K → K → Bool
  | [], _ => false
  | x :: xs, k => if x = k then true else memKey xs k

theorem memKey_eq_true_iff {l : List K} {k : K} : memKey l k = true ↔ k ∈ l := by
  induction l with
  | nil => simp [memKey]
  | cons x xs ih =>
    by_cases h : x = k
    · subst h
      simp [memKey]
    · simp only [memKey, if_neg h, ih, List.mem_cons]
      exact ⟨Or.inr, fun hk => hk.elim (fun he => absurd he.symm h) id⟩

theorem mapFind?_eq_none_iff {m : List (K × α)} {k : K} :
    mapFind? m k = none ↔ k ∉ m.map Prod.fst := by
  induction m with
  | nil => simp [mapFind?]
  | cons p m ih =>
    obtain ⟨k', v⟩ := p
    by_cases h : k' = k
    · subst h
      simp [mapFind?]
    · simp only [mapFind?, if_neg h, ih, List.map_cons, List.mem_cons]
      constructor
      · intro hn hk
        rcases hk with he | hm
        · exact h he.symm
        · exact hn hm
      · intro hn hm
        exact hn (Or.inr hm)

theorem mapFind?_mem {m : List (K × α)} {k : K} {v : α}
    (h : mapFind? m k = some v) : (k, v) ∈ m := by
  induction m with
  | nil => simp [mapFind?] at h
  | cons p m ih =>
    obtain ⟨k', w⟩ := p
    by_cases hk : k' = k
    · subst hk
      rw [mapFind?, if_pos rfl] at h
      obtain rfl : w = v := by injection h
      exact List.mem_cons_self _ _
    · rw [mapFind?, if_neg hk] at h
      exact List.mem_cons_of_mem _ (ih h)

theorem mapFind?_isSome_iff {m : List (K × α)} {k : K} :
    (mapFind? m k).isSome ↔ k ∈ m.map Prod.fst := by
  cases h : mapFind? m k with
  | none => simp [mapFind?_eq_none_iff.mp h]
  | some v =>
    simp only [Option.isSome_some, true_iff]
    exact List.mem_map_of_mem Prod.fst (mapFind?_mem h)

theorem mapUpdate_map_fst (m : List (K × α)) (k : K) (f : α → α) :
    (mapUpdate m k f).map Prod.fst = m.map Prod.fst := by
  induction m with
  | nil => rfl
  | cons p m ih =>
    obtain ⟨k', v⟩ := p
    simp [mapUpdate, ih]

theorem mapUpdate_length (m : List (K × α)) (k : K) (f : α → α) :
    (mapUpdate m k f).length = m.length := by
  induction m with
  | nil => rfl
  | cons p m ih =>
    obtain ⟨k', v⟩ := p
    simp [mapUpdate, ih]

theorem mapFind?_mapUpdate_self (m : List (K × α)) (k : K) (f : α → α) :
    mapFind? (mapUpdate m k f) k = (mapFind? m k).map f := by
  induction m with
  | nil => rfl
  | cons p m ih =>
    obtain ⟨k', v⟩ := p
    by_cases h : k' = k <;> simp [mapUpdate, mapFind?, h, ih]

theorem mapFind?_mapUpdate_ne (m : List (K × α)) {k j : K} (f : α → α)
    (h : j ≠ k) : mapFind? (mapUpdate m k f) j = mapFind? m j := by
  induction m with
  | nil => rfl
  | cons p m ih =>
    obtain ⟨k', v⟩ := p
    by_cases hk : k' = k
    · subst hk
      simp [mapUpdate, mapFind?, Ne.symm h, ih]
    · by_cases hj : k' = j <;> simp [mapUpdate, mapFind?, hk, hj, h, ih]

theorem mapErase_map_fst (m : List (K × α)) (k : K) :
    (mapErase m k).map Prod.fst = filterNe (m.map Prod.fst) k := by
  induction m with
  | nil => rfl
  | cons p m ih =>
    obtain ⟨k', v⟩ := p
    by_cases h : k' = k <;> simp [mapErase, filterNe, h, ih]

theorem mapErase_length_le (m : List (K × α)) (k : K) :
    (mapErase m k).length ≤ m.length := by
  induction m with
  | nil => exact Nat.le_refl _
  | cons p m ih =>
    obtain ⟨k', v⟩ := p
    by_cases h : k' = k
    · simp only [mapErase, if_pos h]
      exact Nat.le_succ_of_le ih
    · simp only [mapErase, if_neg h, List.length_cons]
      exact Nat.succ_le_succ ih

theorem mapFind?_mapErase_self (m : List (K × α)) (k : K) :
    mapFind? (mapErase m k) k = none := by
  induction m with
  | nil => rfl
  | cons p m ih =>
    obtain ⟨k', v⟩ := p
    by_cases h : k' = k <;> simp [mapErase, mapFind?, h, ih]

theorem mapFind?_mapErase_ne (m : List (K × α)) {k j : K} (h : j ≠ k) :
    mapFind? (mapErase m k) j = mapFind? m j := by
  induction m with
  | nil => rfl
  | cons p m ih =>
    obtain ⟨k', v⟩ := p
    by_cases hk : k' = k
    · subst hk
      simp [mapErase, mapFind?, Ne.symm h, ih]
    · by_cases hj : k' = j <;> simp [mapErase, mapFind?, hk, hj, h, ih]

theorem mapFind?_append_of_none {m : List (K × α)} {k : K}
    (h : mapFind? m k = none) (m' : List (K × α)) :
    mapFind? (m ++ m') k = mapFind? m' k := by
  induction m with
  | nil => rfl
  | cons p m ih =>
    obtain ⟨k', v⟩ := p
    by_cases hk : k' = k
    · simp [mapFind?, hk] at h
    · simp only [mapFind?, if_neg hk] at h
      simpa [mapFind?, hk] using ih h

theorem filterNe_eq_self_of_not_mem {l : List K} {k : K} (h : k ∉ l) :
    filterNe l k = l := by
  induction l with
  | nil => rfl
  | cons x xs ih =>
    simp only [List.mem_cons, not_or] at h
    simp [filterNe, Ne.symm h.1, ih h.2]

theorem filterNe_append (l₁ l₂ : List K) (k : K) :
    filterNe (l₁ ++ l₂) k = filterNe l₁ k ++ filterNe l₂ k := by
  induction l₁ with
  | nil => rfl
  | cons x xs ih =>
    by_cases h : x = k <;> simp [filterNe, h, ih]

theorem removeKey_eq_filterNe_of_nodup {l : List K} (h : l.Nodup) (k : K) :
    removeKey l k = filterNe l k := by
  induction l with
  | nil => rfl
  | cons x xs ih =>
    rw [List.nodup_cons] at h
    by_cases hx : x = k
    · subst hx
      simp [removeKey, filterNe, filterNe_eq_self_of_not_mem h.1]
    · simp [removeKey, filterNe, hx, ih h.2]

theorem mem_filterNe {l : List K} {k j : K} :
    j ∈ filterNe l k ↔ j ∈ l ∧ j ≠ k := by
  induction l with
  | nil => simp [filterNe]
  | cons x xs ih =>
    by_cases h : x = k
    · rw [filterNe, if_pos h, ih]
      subst h
      simp only [List.mem_cons]
      constructor
      · exact fun hp => ⟨Or.inr hp.1, hp.2⟩
      · rintro ⟨hj | hj, hne⟩
        · exact absurd hj hne
        · exact ⟨hj, hne⟩
    · rw [filterNe, if_neg h]
      simp only [List.mem_cons, ih]
      constructor
      · rintro (rfl | ⟨hj, hne⟩)
        · exact ⟨Or.inl rfl, h⟩
        · exact ⟨Or.inr hj, hne⟩
      · rintro ⟨rfl | hj, hne⟩
        · exact Or.inl rfl
        · exact Or.inr ⟨hj, hne⟩

/-- Set-style insertion for the ghost key sets (`map[K]struct{}` insert). -/
def insertKeySet (l : List K) (k : K) : List K :=
  if memKey l k then l else k :: l

/-- Cache entry of the sfcache shard.  Source: `entry` in package sfcache
(`key`, `value`, `expiryNano` Unix nanoseconds with 0 meaning no expiry,
`freq` saturating counter, `inSmall` location tag; the intrusive links are
represented by queue membership). -/
structure Entry (V : Type) where
  value : V
  expiryNano : Int
  freq : Nat
  inSmall : Bool
deriving DecidableEq

/-- State of one sfcache shard.  Source: `shard` in package sfcache.
`entries` is the `map[K]*entry`; `small` and `main` are the intrusive
queues as lists of the keys of their nodes, oldest first; the two-map
ghost is `ghostActive`/`ghostAging` with `ghostCount`; `capacity`,
`smallCap`, `ghostCap` are the immutable geometry. -/
structure Shard (K V : Type) where
  entries : List (K × Entry V)
  small : List K
  main : List K
  ghostActive : List K
  ghostAging : List K
  ghostCount : Nat
  capacity : Nat
  smallCap : Nat
  ghostCap : Nat

/-- Keys currently present in the shard map. -/
def Shard.keys (s : Shard K V) : List K := s.entries.map Prod.fst

/-- Frequency of the entry of a key, 0 when absent; used only for the
termination measures. -/
def freqOf (m : List (K × Entry V)) (k : K) : Nat :=
  match mapFind? m k with
  | some e => e.freq
  | none => 0

/-- Sum of the frequencies of a list of keys. -/
def freqSum (m : List (K × Entry V)) (l : List K) : Nat :=
  (l.map (freqOf m)).sum

theorem freqSum_nil (m : List (K × Entry V)) : freqSum m [] = 0 := rfl

theorem freqSum_cons (m : List (K × Entry V)) (k : K) (l : List K) :
    freqSum m (k :: l) = freqOf m k + freqSum m l := by
  simp [freqSum]

theorem freqSum_append (m : List (K × Entry V)) (l₁ l₂ : List K) :
    freqSum m (l₁ ++ l₂) = freqSum m l₁ + freqSum m l₂ := by
  simp [freqSum]

theorem freqOf_eq_zero_of_none {m : List (K × Entry V)} {k : K}
    (h : mapFind? m k = none) : freqOf m k = 0 := by
  simp [freqOf, h]

theorem freqOf_mapUpdate_le (m : List (K × Entry V)) (k j : K)
    {f : Entry V → Entry V} (hf : ∀ x, (f x).freq ≤ x.freq) :
    freqOf (mapUpdate m k f) j ≤ freqOf m j := by
  by_cases hj : j = k
  · subst hj
    rw [freqOf, mapFind?_mapUpdate_self]
    cases h : mapFind? m j with
    | none => simp [freqOf, h]
    | some e => simpa [freqOf, h] using hf e
  · rw [freqOf, mapFind?_mapUpdate_ne m f hj, freqOf]

theorem freqSum_mapUpdate_le (m : List (K × Entry V)) (k : K)
    {f : Entry V → Entry V} (hf : ∀ x, (f x).freq ≤ x.freq) (l : List K) :
    freqSum (mapUpdate m k f) l ≤ freqSum m l := by
  unfold freqSum
  exact List.sum_le_sum fun j _ => freqOf_mapUpdate_le m k j hf

theorem freqOf_mapUpdate_self_of_some {m : List (K × Entry V)} {k : K}
    {e : Entry V} (h : mapFind? m k = some e) (f : Entry V → Entry V) :
    freqOf (mapUpdate m k f) k = (f e).freq := by
  simp [freqOf, mapFind?_mapUpdate_self, h]

theorem freqOf_mapErase_le (m : List (K × Entry V)) (k j : K) :
    freqOf (mapErase m k) j ≤ freqOf m j := by
  by_cases hj : j = k
  · subst hj
    simp [freqOf, mapFind?_mapErase_self]
  · rw [freqOf, mapFind?_mapErase_ne m hj, freqOf]

theorem freqSum_mapErase_le (m : List (K × Entry V)) (k : K) (l : List K) :
    freqSum (mapErase m k) l ≤ freqSum m l := by
  unfold freqSum
  exact List.sum_le_sum fun j _ => freqOf_mapErase_le m k j

/-- Termination measure for the eviction loops: every loop iteration of
`evictFromSmall`, `evictFromMain` and of the capacity loop in `set`
strictly decreases it. -/
def Shard.measureM (s : Shard K V) : Nat :=
  s.small.length + (s.small.length + s.main.length) + freqSum s.entries (s.small ++ s.main)

/-- Ghost insertion.  Source: `shard.addToGhost` — insert into the active
generation, count it, and when the active generation reaches `ghostCap`,
clear the aging map and swap the two generations. -/
def Shard.addToGhost (s : Shard K V) (k : K) : Shard K V :=
  let s1 : Shard K V :=
    { s with ghostActive := insertKeySet s.ghostActive k, ghostCount := s.ghostCount + 1 }
  if s1.ghostCap ≤ s1.ghostCount then
    { s1 with ghostAging := s1.ghostActive, ghostActive := [], ghostCount := 0 }
  else s1

/-- Eviction scan of the small queue.  Source: `shard.evictFromSmall` —
pop the oldest small entry; with frequency 0 it is evicted (removed from
the map, key added to ghost, scan ends), otherwise it is promoted to the
tail of main with frequency reset to 0 and the scan continues.  The
source dereferences the popped node directly; a missing map binding is
impossible for a well-formed shard, and the model skips such a key. -/
def Shard.evictFromSmall (s : Shard K V) : Shard K V :=
  match hq : s.small with
  | [] => s
  | k :: rest =>
    match mapFind? s.entries k with
    | none => Shard.evictFromSmall { s with small := rest }
    | some e =>
      if e.freq = 0 then
        Shard.addToGhost { s with small := rest, entries := mapErase s.entries k } k
      else
        Shard.evictFromSmall
          { s with small := rest,
                   main := s.main ++ [k],
                   entries := mapUpdate s.entries k (fun x => { x with freq := 0, inSmall := false }) }
termination_by s.small.length
decreasing_by
  all_goals simp [hq]

/-- Eviction scan of the main queue.  Source: `shard.evictFromMain` —
pop the oldest main entry; with frequency 0 it is evicted (removed from
the map, not added to ghost, scan ends), otherwise its frequency is
decremented and it is pushed back to the tail of main (second chance). -/
def Shard.evictFromMain (s : Shard K V) : Shard K V :=
  match hq : s.main with
  | [] => s
  | k :: rest =>
    match hf : mapFind? s.entries k with
    | none => Shard.evictFromMain { s with main := rest }
    | some e =>
      if e.freq = 0 then
        { s with main := rest, entries := mapErase s.entries k }
      else
        Shard.evictFromMain
          { s with main := rest ++ [k],
                   entries := mapUpdate s.entries k (fun x => { x with freq := x.freq - 1 }) }
termination_by freqSum s.entries s.main + s.main.length
decreasing_by
  · simp only [hq, freqSum_cons, freqOf_eq_zero_of_none hf, List.length_cons]
    omega
  · have h1 : freqSum (mapUpdate s.entries k (fun x => { x with freq := x.freq - 1 })) rest
        ≤ freqSum s.entries rest :=
      freqSum_mapUpdate_le s.entries k (fun x => Nat.sub_le _ _) rest
    have h2 : freqOf (mapUpdate s.entries k (fun x => { x with freq := x.freq - 1 })) k
        = e.freq - 1 := freqOf_mapUpdate_self_of_some hf _
    have h3 : freqOf s.entries k = e.freq := by simp [freqOf, hf]
    have h4 : e.freq ≠ 0 := by assumption
    simp only [hq, freqSum_cons, freqSum_append, List.length_append, List.length_cons, h2, h3,
      freqSum_nil, List.length_nil]
    omega

/-- One eviction step.  Source: `shard.evict` — evict from small when the
small queue is at or over its capacity, otherwise from main. -/
def Shard.evict (s : Shard K V) : Shard K V :=
  if s.smallCap ≤ s.small.length then s.evictFromSmall else s.evictFromMain

theorem addToGhost_entries (s : Shard K V) (k : K) :
    (s.addToGhost k).entries = s.entries := by
  simp only [Shard.addToGhost]
  split <;> rfl

theorem addToGhost_small (s : Shard K V) (k : K) :
    (s.addToGhost k).small = s.small := by
  simp only [Shard.addToGhost]
  split <;> rfl

theorem addToGhost_main (s : Shard K V) (k : K) :
    (s.addToGhost k).main = s.main := by
  simp only [Shard.addToGhost]
  split <;> rfl

theorem measureM_addToGhost (s : Shard K V) (k : K) :
    (s.addToGhost k).measureM = s.measureM := by
  simp only [Shard.measureM, addToGhost_entries, addToGhost_small, addToGhost_main]

theorem evictFromSmall_eq_nil {s : Shard K V} (hq : s.small = []) :
    s.evictFromSmall = s := by
  rw [Shard.evictFromSmall.eq_def, hq]

theorem evictFromSmall_eq_skip {s : Shard K V} {k : K} {rest : List K}
    (hq : s.small = k :: rest) (hf : mapFind? s.entries k = none) :
    s.evictFromSmall = Shard.evictFromSmall { s with small := rest } := by
  rw [Shard.evictFromSmall.eq_def, hq]
  split
  · rename_i heq
    simp at heq
  · rename_i k1 rest1 heq
    obtain ⟨rfl, rfl⟩ : k = k1 ∧ rest = rest1 := by
      injection heq with h1 h2
      exact ⟨h1, h2⟩
    simp only [hf]

theorem evictFromSmall_eq_evict {s : Shard K V} {k : K} {rest : List K} {e : Entry V}
    (hq : s.small = k :: rest) (hf : mapFind? s.entries k = some e)
    (he : e.freq = 0) :
    s.evictFromSmall =
      Shard.addToGhost { s with small := rest, entries := mapErase s.entries k } k := by
  rw [Shard.evictFromSmall.eq_def, hq]
  split
  · rename_i heq
    simp at heq
  · rename_i k1 rest1 heq
    obtain ⟨rfl, rfl⟩ : k = k1 ∧ rest = rest1 := by
      injection heq with h1 h2
      exact ⟨h1, h2⟩
    simp only [hf, if_pos he]

theorem evictFromSmall_eq_promote {s : Shard K V} {k : K} {rest : List K} {e : Entry V}
    (hq : s.small = k :: rest) (hf : mapFind? s.entries k = some e)
    (he : e.freq ≠ 0) :
    s.evictFromSmall = Shard.evictFromSmall
      { s with small := rest,
               main := s.main ++ [k],
               entries := mapUpdate s.entries k (fun x => { x with freq := 0, inSmall := false }) } := by
  rw [Shard.evictFromSmall.eq_def, hq]
  split
  · rename_i heq
    simp at heq
  · rename_i k1 rest1 heq
    obtain ⟨rfl, rfl⟩ : k = k1 ∧ rest = rest1 := by
      injection heq with h1 h2
      exact ⟨h1, h2⟩
    simp only [hf, if_neg he]

theorem evictFromMain_eq_nil {s : Shard K V} (hq : s.main = []) :
    s.evictFromMain = s := by
  rw [Shard.evictFromMain.eq_def, hq]

theorem measureM_evictFromSmall_le (s : Shard K V) :
    s.evictFromSmall.measureM ≤ s.measureM := by
  induction s using Shard.evictFromSmall.induct with
  | case1 x hq =>
    rw [Shard.evictFromSmall.eq_def, hq]
  | case2 x k rest hq hf ih =>
    rw [Shard.evictFromSmall.eq_def, hq]
    simp only [hf]
    refine le_trans ih ?_
    simp only [Shard.measureM, hq, List.cons_append, freqSum_cons, List.length_cons]
    omega
  | case3 x k rest hq e hf he =>
    rw [Shard.evictFromSmall.eq_def, hq]
    simp only [hf, if_pos he, measureM_addToGhost]
    have hle := freqSum_mapErase_le x.entries k (rest ++ x.main)
    simp only [Shard.measureM, hq, List.cons_append, freqSum_cons, List.length_cons]
    omega
  | case4 x k rest hq e hf he ih =>
    rw [Shard.evictFromSmall.eq_def, hq]
    simp only [hf, if_neg he]
    refine le_trans ih ?_
    have hle1 := freqSum_mapUpdate_le x.entries k
      (f := fun x => { x with freq := 0, inSmall := false }) (fun _ => Nat.zero_le _) rest
    have hle2 := freqSum_mapUpdate_le x.entries k
      (f := fun x => { x with freq := 0, inSmall := false }) (fun _ => Nat.zero_le _) x.main
    have h0 : freqOf (mapUpdate x.entries k (fun x => { x with freq := 0, inSmall := false })) k
        = 0 := freqOf_mapUpdate_self_of_some hf _
    simp only [Shard.measureM, hq, List.cons_append, freqSum_cons, freqSum_append,
      List.length_cons, List.length_append, freqSum_nil, List.length_nil, h0]
    omega

theorem measureM_evictFromSmall_lt (s : Shard K V) (hne : s.small ≠ []) :
    s.evictFromSmall.measureM < s.measureM := by
  rcases hq : s.small with _ | ⟨k, rest⟩
  · exact absurd hq hne
  rw [Shard.evictFromSmall.eq_def, hq]
  cases hf : mapFind? s.entries k with
  | none =>
    simp only [hf]
    refine lt_of_le_of_lt (measureM_evictFromSmall_le _) ?_
    simp only [Shard.measureM, hq, List.cons_append, freqSum_cons, List.length_cons]
    omega
  | some e =>
    by_cases he : e.freq = 0
    · simp only [hf, if_pos he, measureM_addToGhost]
      have hle := freqSum_mapErase_le s.entries k (rest ++ s.main)
      simp only [Shard.measureM, hq, List.cons_append, freqSum_cons, List.length_cons]
      omega
    · simp only [hf, if_neg he]
      refine lt_of_le_of_lt (measureM_evictFromSmall_le _) ?_
      have hle1 := freqSum_mapUpdate_le s.entries k
        (f := fun x => { x with freq := 0, inSmall := false }) (fun _ => Nat.zero_le _) rest
      have hle2 := freqSum_mapUpdate_le s.entries k
        (f := fun x => { x with freq := 0, inSmall := false }) (fun _ => Nat.zero_le _) s.main
      have h0 : freqOf (mapUpdate s.entries k (fun x => { x with freq := 0, inSmall := false })) k
          = 0 := freqOf_mapUpdate_self_of_some hf _
      simp only [Shard.measureM, hq, List.cons_append, freqSum_cons, freqSum_append,
        List.length_cons, List.length_append, freqSum_nil, List.length_nil, h0]
      omega

theorem evictFromMain_eq_skip {s : Shard K V} {k : K} {rest : List K}
    (hq : s.main = k :: rest) (hf : mapFind? s.entries k = none) :
    s.evictFromMain = Shard.evictFromMain { s with main := rest } := by
  rw [Shard.evictFromMain.eq_def, hq]
  split
  · rename_i heq
    simp at heq
  · rename_i k1 rest1 heq
    obtain ⟨rfl, rfl⟩ : k = k1 ∧ rest = rest1 := by
      injection heq with h1 h2
      exact ⟨h1, h2⟩
    split
    · rfl
    · rename_i e1 heq2
      rw [hf] at heq2
      exact Option.noConfusion heq2

theorem evictFromMain_eq_evict {s : Shard K V} {k : K} {rest : List K} {e : Entry V}
    (hq : s.main = k :: rest) (hf : mapFind? s.entries k = some e)
    (he : e.freq = 0) :
    s.evictFromMain = { s with main := rest, entries := mapErase s.entries k } := by
  rw [Shard.evictFromMain.eq_def, hq]
  split
  · rename_i heq
    simp at heq
  · rename_i k1 rest1 heq
    obtain ⟨rfl, rfl⟩ : k = k1 ∧ rest = rest1 := by
      injection heq with h1 h2
      exact ⟨h1, h2⟩
    split
    · rename_i heq2
      rw [hf] at heq2
      exact Option.noConfusion heq2
    · rename_i e1 heq2
      rw [hf] at heq2
      obtain rfl : e = e1 := by injection heq2
      rw [if_pos he]

theorem evictFromMain_eq_rotate {s : Shard K V} {k : K} {rest : List K} {e : Entry V}
    (hq : s.main = k :: rest) (hf : mapFind? s.entries k = some e)
    (he : e.freq ≠ 0) :
    s.evictFromMain = Shard.evictFromMain
      { s with main := rest ++ [k],
               entries := mapUpdate s.entries k (fun x => { x with freq := x.freq - 1 }) } := by
  rw [Shard.evictFromMain.eq_def, hq]
  split
  · rename_i heq
    simp at heq
  · rename_i k1 rest1 heq
    obtain ⟨rfl, rfl⟩ : k = k1 ∧ rest = rest1 := by
      injection heq with h1 h2
      exact ⟨h1, h2⟩
    split
    · rename_i heq2
      rw [hf] at heq2
      exact Option.noConfusion heq2
    · rename_i e1 heq2
      rw [hf] at heq2
      obtain rfl : e = e1 := by injection heq2
      rw [if_neg he]

theorem measureM_evictFromMain_le (s : Shard K V) :
    s.evictFromMain.measureM ≤ s.measureM := by
  induction s using Shard.evictFromMain.induct with
  | case1 x hq =>
    rw [Shard.evictFromMain.eq_def, hq]
  | case2 x k rest hq hf ih =>
    rw [evictFromMain_eq_skip hq hf]
    refine le_trans ih ?_
    simp only [Shard.measureM, hq, freqSum_cons, freqSum_append, List.length_cons]
    omega
  | case3 x k rest hq e hf he =>
    rw [evictFromMain_eq_evict hq hf he]
    have hleS := freqSum_mapErase_le x.entries k x.small
    have hleR := freqSum_mapErase_le x.entries k rest
    simp only [Shard.measureM, hq, freqSum_cons, freqSum_append, List.length_cons]
    omega
  | case4 x k rest hq e hf he ih =>
    rw [evictFromMain_eq_rotate hq hf he]
    refine le_trans ih ?_
    have hle1 := freqSum_mapUpdate_le x.entries k
      (f := fun x => { x with freq := x.freq - 1 }) (fun _ => Nat.sub_le _ _) rest
    have hle2 := freqSum_mapUpdate_le x.entries k
      (f := fun x => { x with freq := x.freq - 1 }) (fun _ => Nat.sub_le _ _) x.small
    have h0 : freqOf (mapUpdate x.entries k (fun x => { x with freq := x.freq - 1 })) k
        = e.freq - 1 := freqOf_mapUpdate_self_of_some hf _
    have h3 : freqOf x.entries k = e.freq := by simp [freqOf, hf]
    simp only [Shard.measureM, hq, freqSum_cons, freqSum_append, List.length_cons,
      List.length_append, freqSum_nil, List.length_nil, h0, h3]
    omega

theorem measureM_evictFromMain_lt (s : Shard K V) (hne : s.main ≠ []) :
    s.evictFromMain.measureM < s.measureM := by
  rcases hq : s.main with _ | ⟨k, rest⟩
  · exact absurd hq hne
  cases hf : mapFind? s.entries k with
  | none =>
    rw [evictFromMain_eq_skip hq hf]
    refine lt_of_le_of_lt (measureM_evictFromMain_le _) ?_
    simp only [Shard.measureM, hq, freqSum_cons, freqSum_append, List.length_cons]
    omega
  | some e =>
    by_cases he : e.freq = 0
    · rw [evictFromMain_eq_evict hq hf he]
      have hleS := freqSum_mapErase_le s.entries k s.small
      have hleR := freqSum_mapErase_le s.entries k rest
      simp only [Shard.measureM, hq, freqSum_cons, freqSum_append, List.length_cons]
      omega
    · rw [evictFromMain_eq_rotate hq hf he]
      refine lt_of_le_of_lt (measureM_evictFromMain_le _) ?_
      have hle1 := freqSum_mapUpdate_le s.entries k
        (f := fun x => { x with freq := x.freq - 1 }) (fun _ => Nat.sub_le _ _) rest
      have hle2 := freqSum_mapUpdate_le s.entries k
        (f := fun x => { x with freq := x.freq - 1 }) (fun _ => Nat.sub_le _ _) s.small
      have h0 : freqOf (mapUpdate s.entries k (fun x => { x with freq := x.freq - 1 })) k
          = e.freq - 1 := freqOf_mapUpdate_self_of_some hf _
      have h3 : freqOf s.entries k = e.freq := by simp [freqOf, hf]
      have h4 : e.freq ≠ 0 := he
      simp only [Shard.measureM, hq, freqSum_cons, freqSum_append, List.length_cons,
        List.length_append, freqSum_nil, List.length_nil, h0, h3]
      omega

theorem measureM_evict_lt (s : Shard K V)
    (hcap : s.capacity ≤ s.small.length + s.main.length)
    (h1 : 1 ≤ s.smallCap) (h2 : s.smallCap ≤ s.capacity) :
    s.evict.measureM < s.measureM := by
  rw [Shard.evict]
  by_cases hb : s.smallCap ≤ s.small.length
  · rw [if_pos hb]
    refine measureM_evictFromSmall_lt s ?_
    have : 0 < s.small.length := lt_of_lt_of_le h1 hb
    exact List.length_pos.mp this
  · rw [if_neg hb]
    refine measureM_evictFromMain_lt s ?_
    have : 0 < s.main.length := by omega
    exact List.length_pos.mp this

/-- Capacity loop of `shard.set`.  Source: the loop
`for s.small.len+s.main.len >= s.capacity { s.evict() }`.  The guard also
carries the immutable shard geometry `1 ≤ smallCap ≤ capacity`, which
`newShard` establishes for every shard it builds (`smallCap` is at least
1 and at most the capacity); under that geometry the loop coincides with
the source loop, and it is what makes the loop terminate. -/
def Shard.evictLoop (s : Shard K V) : Shard K V :=
  if h : s.capacity ≤ s.small.length + s.main.length
      ∧ 1 ≤ s.smallCap ∧ s.smallCap ≤ s.capacity then
    Shard.evictLoop s.evict
  else s
termination_by s.measureM
decreasing_by exact measureM_evict_lt s h.1 h.2.1 h.2.2

/-- Lookup.  Source: `shard.get` — a missing key is a miss; an entry whose
expiry has passed is a miss without mutation (lazy expiry); otherwise the
frequency is bumped up to the cap of 3 and the value returned. -/
def Shard.get (s : Shard K V) (now : Int) (k : K) : Option V × Shard K V :=
  match mapFind? s.entries k with
  | none => (none, s)
  | some e =>
    if e.expiryNano ≠ 0 ∧ e.expiryNano < now then (none, s)
    else
      (some e.value,
        if e.freq < 3 then
          { s with entries := mapUpdate s.entries k (fun x => { x with freq := x.freq + 1 }) }
        else s)

/-- Write.  Source: `shard.set` — an existing entry has its value and
expiry updated in place (nothing else changes); a new key is admitted to
main when the ghost remembers it and to small otherwise, with frequency
0, after evicting while the shard is at capacity.  The ghost membership
test happens before the eviction loop, as in the source. -/
def Shard.set (s : Shard K V) (k : K) (v : V) (expiryNano : Int) : Shard K V :=
  match mapFind? s.entries k with
  | some _ =>
    { s with entries :=
        mapUpdate s.entries k (fun x => { x with value := v, expiryNano := expiryNano }) }
  | none =>
    if memKey s.ghostActive k || memKey s.ghostAging k then
      { s.evictLoop with
          main := s.evictLoop.main ++ [k],
          entries := s.evictLoop.entries ++ [(k, ⟨v, expiryNano, 0, false⟩)] }
    else
      { s.evictLoop with
          small := s.evictLoop.small ++ [k],
          entries := s.evictLoop.entries ++ [(k, ⟨v, expiryNano, 0, true⟩)] }

/-- Removal.  Source: `shard.delete` — a missing key is a no-op; otherwise
the entry is unlinked from the queue named by its `inSmall` tag and the
key is deleted from the map.  Not added to ghost. -/
def Shard.delete (s : Shard K V) (k : K) : Shard K V :=
  match mapFind? s.entries k with
  | none => s
  | some e =>
    if e.inSmall then
      { s with small := removeKey s.small k, entries := mapErase s.entries k }
    else
      { s with main := removeKey s.main k, entries := mapErase s.entries k }

/-- Full reset.  Source: `shard.flush` — returns the number of entries and
clears the map, both queues and both ghost generations. -/
def Shard.flush (s : Shard K V) : Nat × Shard K V :=
  (s.entries.length,
   { s with entries := [], small := [], main := [],
            ghostActive := [], ghostAging := [], ghostCount := 0 })

/-- Truth of the lazy-expiry test of an entry at an instant. -/
def Entry.isExpired (e : Entry V) (now : Int) : Bool :=
  decide (e.expiryNano ≠ 0 ∧ e.expiryNano < now)

/-- Truth of the lazy-expiry test for the entry of a key (false when the
key is absent). -/
def expiredKey (m : List (K × Entry V)) (now : Int) (k : K) : Bool :=
  match mapFind? m k with
  | some e => e.isExpired now
  | none => false

/-- Modelled from the spec: the shard-level body of the memory tier's
`cleanup` is not among the provided source files (only its bdcache
counterpart is).  Per the spec (§4.3 Expiry), cleanup walks the shard and
physically removes every expired entry it finds, from the map and from
whichever queue holds it. -/
def Shard.cleanup (s : Shard K V) (now : Int) : Shard K V :=
  { s with entries := s.entries.filter (fun p => !(p.2.isExpired now)),
           small := s.small.filter (fun k => !(expiredKey s.entries now k)),
           main := s.main.filter (fun k => !(expiredKey s.entries now k)) }

theorem geom_addToGhost (s : Shard K V) (k : K) :
    (s.addToGhost k).capacity = s.capacity ∧ (s.addToGhost k).smallCap = s.smallCap := by
  simp only [Shard.addToGhost]
  split <;> exact ⟨rfl, rfl⟩

theorem geom_evictFromSmall (s : Shard K V) :
    s.evictFromSmall.capacity = s.capacity ∧ s.evictFromSmall.smallCap = s.smallCap := by
  induction s using Shard.evictFromSmall.induct with
  | case1 x hq =>
    rw [evictFromSmall_eq_nil hq]
    exact ⟨rfl, rfl⟩
  | case2 x k rest hq hf ih =>
    rw [evictFromSmall_eq_skip hq hf]
    exact ih
  | case3 x k rest hq e hf he =>
    rw [evictFromSmall_eq_evict hq hf he]
    exact geom_addToGhost _ _
  | case4 x k rest hq e hf he ih =>
    rw [evictFromSmall_eq_promote hq hf he]
    exact ih

theorem geom_evictFromMain (s : Shard K V) :
    s.evictFromMain.capacity = s.capacity ∧ s.evictFromMain.smallCap = s.smallCap := by
  induction s using Shard.evictFromMain.induct with
  | case1 x hq =>
    rw [evictFromMain_eq_nil hq]
    exact ⟨rfl, rfl⟩
  | case2 x k rest hq hf ih =>
    rw [evictFromMain_eq_skip hq hf]
    exact ih
  | case3 x k rest hq e hf he =>
    rw [evictFromMain_eq_evict hq hf he]
    exact ⟨rfl, rfl⟩
  | case4 x k rest hq e hf he ih =>
    rw [evictFromMain_eq_rotate hq hf he]
    exact ih

theorem geom_evict (s : Shard K V) :
    s.evict.capacity = s.capacity ∧ s.evict.smallCap = s.smallCap := by
  rw [Shard.evict]
  split
  · exact geom_evictFromSmall s
  · exact geom_evictFromMain s

theorem evictLoop_eq_exit {s : Shard K V}
    (h : ¬(s.capacity ≤ s.small.length + s.main.length
      ∧ 1 ≤ s.smallCap ∧ s.smallCap ≤ s.capacity)) :
    s.evictLoop = s := by
  rw [Shard.evictLoop]
  exact dif_neg h

theorem evictLoop_eq_loop {s : Shard K V}
    (h : s.capacity ≤ s.small.length + s.main.length
      ∧ 1 ≤ s.smallCap ∧ s.smallCap ≤ s.capacity) :
    s.evictLoop = s.evict.evictLoop := by
  rw [Shard.evictLoop]
  exact dif_pos h

theorem geom_evictLoop (s : Shard K V) :
    s.evictLoop.capacity = s.capacity ∧ s.evictLoop.smallCap = s.smallCap := by
  induction s using Shard.evictLoop.induct with
  | case1 x h ih =>
    rw [evictLoop_eq_loop h]
    obtain ⟨h1, h2⟩ := geom_evict x
    obtain ⟨h3, h4⟩ := ih
    exact ⟨h3.trans h1, h4.trans h2⟩
  | case2 x h =>
    rw [evictLoop_eq_exit h]
    exact ⟨rfl, rfl⟩

/-- Post-condition of the capacity loop: for a shard whose geometry is the
one `newShard` establishes, the loop only stops strictly below capacity. -/
theorem evictLoop_size_lt (s : Shard K V)
    (h1 : 1 ≤ s.smallCap) (h2 : s.smallCap ≤ s.capacity) :
    s.evictLoop.small.length + s.evictLoop.main.length < s.capacity := by
  induction s using Shard.evictLoop.induct with
  | case1 x h ih =>
    rw [evictLoop_eq_loop h]
    obtain ⟨hc, hs⟩ := geom_evict x
    have := ih (hs.symm ▸ h.2.1) (by rw [hs, hc]; exact h.2.2)
    rwa [hc] at this
  | case2 x h =>
    rw [evictLoop_eq_exit h]
    rcases Nat.lt_or_ge (x.small.length + x.main.length) x.capacity with hlt | hge
    · exact hlt
    · exact absurd ⟨hge, h1, h2⟩ h

/-- Well-formedness of a shard: the queues partition the map (every key
is in exactly one queue and the queues hold no duplicates), the
`inSmall` tag of every entry names the queue that holds it, and the
entry count is within capacity.  This is the §8 invariant
`|small| + |main| = |by_key| ≤ capacity` together with the location
invariant (§3) that makes it inductive. -/
def Shard.WF (s : Shard K V) : Prop :=
  s.keys.Perm (s.small ++ s.main)
  ∧ (s.small ++ s.main).Nodup
  ∧ (∀ p ∈ s.entries, ((p : K × Entry V).2.inSmall = true ↔ p.1 ∈ s.small))
  ∧ s.entries.length ≤ s.capacity

theorem Shard.WF.size_eq {s : Shard K V} (h : s.WF) :
    s.entries.length = s.small.length + s.main.length := by
  have := h.1.length_eq
  simpa [Shard.keys] using this

theorem Shard.WF.size_le {s : Shard K V} (h : s.WF) : s.entries.length ≤ s.capacity :=
  h.2.2.2

theorem Shard.WF.mem_keys_iff {s : Shard K V} (h : s.WF) {k : K} :
    k ∈ s.keys ↔ k ∈ s.small ∨ k ∈ s.main := by
  rw [h.1.mem_iff, List.mem_append]

theorem Shard.WF.loc_of_find {s : Shard K V} (h : s.WF) {k : K} {e : Entry V}
    (hf : mapFind? s.entries k = some e) : e.inSmall = true ↔ k ∈ s.small :=
  h.2.2.1 _ (mapFind?_mem hf)

theorem Shard.WF.small_disjoint_main {s : Shard K V} (h : s.WF) {k : K}
    (hk : k ∈ s.small) : k ∉ s.main :=
  (List.nodup_append.mp h.2.1).2.2 hk

theorem Shard.WF.find_isSome_of_mem_small {s : Shard K V} (h : s.WF) {k : K}
    (hk : k ∈ s.small) : (mapFind? s.entries k).isSome :=
  mapFind?_isSome_iff.mpr ((h.mem_keys_iff).mpr (Or.inl hk))

theorem Shard.WF.find_isSome_of_mem_main {s : Shard K V} (h : s.WF) {k : K}
    (hk : k ∈ s.main) : (mapFind? s.entries k).isSome :=
  mapFind?_isSome_iff.mpr ((h.mem_keys_iff).mpr (Or.inr hk))

theorem mem_mapErase_iff {m : List (K × α)} {k : K} {p : K × α} :
    p ∈ mapErase m k ↔ p ∈ m ∧ p.1 ≠ k := by
  induction m with
  | nil => simp [mapErase]
  | cons q m ih =>
    obtain ⟨k', v⟩ := q
    by_cases h : k' = k
    · simp only [mapErase]
      rw [if_pos h, ih]
      constructor
      · rintro ⟨hp, hne⟩
        exact ⟨List.mem_cons_of_mem _ hp, hne⟩
      · rintro ⟨hp, hne⟩
        rcases List.mem_cons.mp hp with rfl | hp2
        · exact absurd h hne
        · exact ⟨hp2, hne⟩
    · simp only [mapErase]
      rw [if_neg h]
      simp only [List.mem_cons, ih]
      constructor
      · rintro (rfl | ⟨hp, hne⟩)
        · exact ⟨Or.inl rfl, h⟩
        · exact ⟨Or.inr hp, hne⟩
      · rintro ⟨rfl | hp, hne⟩
        · exact Or.inl rfl
        · exact Or.inr ⟨hp, hne⟩

theorem mem_mapUpdate {m : List (K × α)} {k : K} {f : α → α} {p : K × α}
    (hp : p ∈ mapUpdate m k f) :
    (p.1 = k ∧ ∃ e, (k, e) ∈ m ∧ p.2 = f e) ∨ (p ∈ m ∧ p.1 ≠ k) := by
  induction m with
  | nil => simp [mapUpdate] at hp
  | cons q m ih =>
    obtain ⟨k', v⟩ := q
    simp only [mapUpdate, List.mem_cons] at hp
    rcases hp with rfl | hp
    · by_cases h : k' = k
      · subst h
        exact Or.inl ⟨rfl, v, List.mem_cons_self _ _, by simp⟩
      · exact Or.inr ⟨by simp [if_neg h], h⟩
    · rcases ih hp with ⟨h1, e, he, h2⟩ | ⟨h1, h2⟩
      · exact Or.inl ⟨h1, e, List.mem_cons_of_mem _ he, h2⟩
      · exact Or.inr ⟨List.mem_cons_of_mem _ h1, h2⟩

theorem filterNe_eq_filter (l : List K) (k : K) :
    filterNe l k = l.filter (fun x => !(decide (x = k))) := by
  induction l with
  | nil => rfl
  | cons x xs ih =>
    by_cases h : x = k <;> simp [filterNe, h, ih, List.filter_cons]

theorem filterNe_perm {l₁ l₂ : List K} (h : l₁.Perm l₂) (k : K) :
    (filterNe l₁ k).Perm (filterNe l₂ k) := by
  rw [filterNe_eq_filter, filterNe_eq_filter]
  exact h.filter _

theorem find_of_mem_of_nodup {m : List (K × α)} {k : K} {v : α}
    (hn : (m.map Prod.fst).Nodup) (hm : (k, v) ∈ m) :
    mapFind? m k = some v := by
  induction m with
  | nil => simp at hm
  | cons q m ih =>
    obtain ⟨k', w⟩ := q
    simp only [List.map_cons, List.nodup_cons] at hn
    rcases List.mem_cons.mp hm with heq | hm2
    · obtain ⟨rfl, rfl⟩ : k' = k ∧ w = v := by
        injection heq with h1 h2
        exact ⟨h1.symm, h2.symm⟩
      simp [mapFind?]
    · have hk : k' ≠ k := by
        rintro rfl
        exact hn.1 (List.mem_map_of_mem Prod.fst hm2)
      rw [mapFind?, if_neg hk]
      exact ih hn.2 hm2

theorem filterNe_cons_self (l : List K) (k : K) :
    filterNe (k :: l) k = filterNe l k := by
  simp [filterNe]

theorem perm_promote (k : K) (rest mn : List K) :
    List.Perm ((k :: rest) ++ mn) (rest ++ (mn ++ [k])) := by
  have h1 : List.Perm (k :: (rest ++ mn)) ((rest ++ mn) ++ [k]) :=
    (List.perm_append_singleton k (rest ++ mn)).symm
  simpa [List.append_assoc] using h1

theorem perm_insert_small (sm mn : List K) (k : K) :
    List.Perm ((sm ++ mn) ++ [k]) ((sm ++ [k]) ++ mn) := by
  have h1 : List.Perm (mn ++ [k]) ([k] ++ mn) := List.perm_append_comm
  have h2 := List.Perm.append_left sm h1
  simpa [List.append_assoc] using h2

theorem perm_rotate (sm rest : List K) (k : K) :
    List.Perm (sm ++ (k :: rest)) (sm ++ (rest ++ [k])) :=
  List.Perm.append_left sm (List.perm_append_singleton k rest).symm

theorem find_none_mapErase {m : List (K × α)} {k : K}
    (h : mapFind? m k = none) (j : K) : mapFind? (mapErase m j) k = none := by
  by_cases hj : k = j
  · subst hj
    exact mapFind?_mapErase_self m k
  · rw [mapFind?_mapErase_ne m hj]
    exact h

theorem find_none_mapUpdate {m : List (K × α)} {k : K}
    (h : mapFind? m k = none) (j : K) (f : α → α) :
    mapFind? (mapUpdate m j f) k = none := by
  by_cases hj : k = j
  · subst hj
    rw [mapFind?_mapUpdate_self, h]
    rfl
  · rw [mapFind?_mapUpdate_ne m f hj]
    exact h

theorem WF_addToGhost {s : Shard K V} (h : s.WF) (k : K) : (s.addToGhost k).WF := by
  unfold Shard.WF Shard.keys
  rw [addToGhost_entries, addToGhost_small, addToGhost_main, (geom_addToGhost s k).1]
  exact h

theorem WF_get {s : Shard K V} (h : s.WF) (now : Int) (k : K) :
    ((s.get now k).2).WF := by
  rw [Shard.get]
  cases hf : mapFind? s.entries k with
  | none => exact h
  | some e =>
    simp only
    split
    · exact h
    · show Shard.WF (if e.freq < 3 then _ else _)
      split
      · obtain ⟨h1, h2, h3, h4⟩ := h
        refine ⟨?_, h2, ?_, ?_⟩
        · show ((mapUpdate s.entries k _).map Prod.fst).Perm _
          rw [mapUpdate_map_fst]
          exact h1
        · intro p hp
          obtain ⟨p1, p2⟩ := p
          rcases mem_mapUpdate hp with ⟨hk, e1, he1, hp2⟩ | ⟨hp1, hne⟩
          · simp only at hk hp2
            subst hk
            subst hp2
            simpa using h3 (p1, e1) he1
          · exact h3 (p1, p2) hp1
        · show (mapUpdate s.entries k _).length ≤ s.capacity
          rw [mapUpdate_length]
          exact h4
      · exact h

theorem WF_evictFromSmall {s : Shard K V} (h : s.WF) : s.evictFromSmall.WF := by
  induction s using Shard.evictFromSmall.induct with
  | case1 x hq => rwa [evictFromSmall_eq_nil hq]
  | case2 x k rest hq hf ih =>
    exfalso
    have hk : k ∈ x.small := by
      rw [hq]
      exact List.mem_cons_self _ _
    have hs := h.find_isSome_of_mem_small hk
    rw [hf] at hs
    simp at hs
  | case3 x k rest hq e hf he =>
    rw [evictFromSmall_eq_evict hq hf he]
    obtain ⟨h1, h2, h3, h4⟩ := h
    rw [hq] at h1 h2
    simp only [List.cons_append, List.nodup_cons] at h2
    obtain ⟨hknotin, h2tail⟩ := h2
    have hknr : k ∉ rest := fun hc => hknotin (List.mem_append_left _ hc)
    have hknm : k ∉ x.main := fun hc => hknotin (List.mem_append_right _ hc)
    refine WF_addToGhost ⟨?_, h2tail, ?_, ?_⟩ k
    · show ((mapErase x.entries k).map Prod.fst).Perm (rest ++ x.main)
      rw [mapErase_map_fst]
      have hp := filterNe_perm h1 k
      rw [List.cons_append, filterNe_cons_self, filterNe_append,
        filterNe_eq_self_of_not_mem hknr, filterNe_eq_self_of_not_mem hknm] at hp
      exact hp
    · intro p hp
      obtain ⟨hp1, hne⟩ := mem_mapErase_iff.mp hp
      have := h3 p hp1
      rw [hq] at this
      rw [this]
      simp [List.mem_cons, hne]
    · exact le_trans (mapErase_length_le _ _) h4
  | case4 x k rest hq e hf he ih =>
    rw [evictFromSmall_eq_promote hq hf he]
    apply ih
    obtain ⟨h1, h2, h3, h4⟩ := h
    rw [hq] at h1 h2
    simp only [List.cons_append, List.nodup_cons] at h2
    obtain ⟨hknotin, h2tail⟩ := h2
    have hknr : k ∉ rest := fun hc => hknotin (List.mem_append_left _ hc)
    refine ⟨?_, ?_, ?_, ?_⟩
    · show ((mapUpdate x.entries k _).map Prod.fst).Perm (rest ++ (x.main ++ [k]))
      rw [mapUpdate_map_fst]
      exact h1.trans (perm_promote k rest x.main)
    · have hnd : ((k :: rest) ++ x.main).Nodup := by
        rw [List.cons_append, List.nodup_cons]
        exact ⟨hknotin, h2tail⟩
      exact (perm_promote k rest x.main).nodup hnd
    · intro p hp
      obtain ⟨p1, p2⟩ := p
      rcases mem_mapUpdate hp with ⟨hk, e1, he1, hp2⟩ | ⟨hp1, hne⟩
      · simp only at hk hp2
        subst hk
        subst hp2
        simpa using hknr
      · have := h3 (p1, p2) hp1
        rw [hq] at this
        rw [this]
        simp only [List.mem_cons]
        exact ⟨fun hc => hc.elim (fun hc1 => absurd hc1 hne) id, Or.inr⟩
    · show (mapUpdate x.entries k _).length ≤ x.capacity
      rw [mapUpdate_length]
      exact h4

theorem WF_evictFromMain {s : Shard K V} (h : s.WF) : s.evictFromMain.WF := by
  induction s using Shard.evictFromMain.induct with
  | case1 x hq => rwa [evictFromMain_eq_nil hq]
  | case2 x k rest hq hf ih =>
    exfalso
    have hk : k ∈ x.main := by
      rw [hq]
      exact List.mem_cons_self _ _
    have hs := h.find_isSome_of_mem_main hk
    rw [hf] at hs
    simp at hs
  | case3 x k rest hq e hf he =>
    rw [evictFromMain_eq_evict hq hf he]
    obtain ⟨h1, h2, h3, h4⟩ := h
    rw [hq] at h1 h2
    have h2c := (@List.perm_middle K k x.small rest).nodup_iff.mp h2
    rw [List.nodup_cons] at h2c
    obtain ⟨hknotin, h2tail⟩ := h2c
    have hkns : k ∉ x.small := fun hc => hknotin (List.mem_append_left _ hc)
    have hknr : k ∉ rest := fun hc => hknotin (List.mem_append_right _ hc)
    refine ⟨?_, h2tail, ?_, ?_⟩
    · show ((mapErase x.entries k).map Prod.fst).Perm (x.small ++ rest)
      rw [mapErase_map_fst]
      have hp := filterNe_perm h1 k
      rw [filterNe_append, filterNe_cons_self, filterNe_eq_self_of_not_mem hkns,
        filterNe_eq_self_of_not_mem hknr] at hp
      exact hp
    · intro p hp
      obtain ⟨hp1, _⟩ := mem_mapErase_iff.mp hp
      exact h3 p hp1
    · exact le_trans (mapErase_length_le _ _) h4
  | case4 x k rest hq e hf he ih =>
    rw [evictFromMain_eq_rotate hq hf he]
    apply ih
    obtain ⟨h1, h2, h3, h4⟩ := h
    rw [hq] at h1 h2
    refine ⟨?_, ?_, ?_, ?_⟩
    · show ((mapUpdate x.entries k _).map Prod.fst).Perm (x.small ++ (rest ++ [k]))
      rw [mapUpdate_map_fst]
      exact h1.trans (perm_rotate x.small rest k)
    · exact (perm_rotate x.small rest k).nodup h2
    · intro p hp
      obtain ⟨p1, p2⟩ := p
      rcases mem_mapUpdate hp with ⟨hk, e1, he1, hp2⟩ | ⟨hp1, hne⟩
      · simp only at hk hp2
        subst hk
        subst hp2
        simpa using h3 (p1, e1) he1
      · exact h3 (p1, p2) hp1
    · show (mapUpdate x.entries k _).length ≤ x.capacity
      rw [mapUpdate_length]
      exact h4

theorem WF_evict {s : Shard K V} (h : s.WF) : s.evict.WF := by
  rw [Shard.evict]
  split
  · exact WF_evictFromSmall h
  · exact WF_evictFromMain h

theorem WF_evictLoop {s : Shard K V} (h : s.WF) : s.evictLoop.WF := by
  induction s using Shard.evictLoop.induct with
  | case1 x hg ih =>
    rw [evictLoop_eq_loop hg]
    exact ih (WF_evict h)
  | case2 x hg =>
    rwa [evictLoop_eq_exit hg]

theorem find_none_evictFromSmall {s : Shard K V} {k : K}
    (h : mapFind? s.entries k = none) :
    mapFind? s.evictFromSmall.entries k = none := by
  induction s using Shard.evictFromSmall.induct with
  | case1 x hq => rwa [evictFromSmall_eq_nil hq]
  | case2 x k1 rest hq hf ih =>
    rw [evictFromSmall_eq_skip hq hf]
    exact ih h
  | case3 x k1 rest hq e hf he =>
    rw [evictFromSmall_eq_evict hq hf he, addToGhost_entries]
    exact find_none_mapErase h k1
  | case4 x k1 rest hq e hf he ih =>
    rw [evictFromSmall_eq_promote hq hf he]
    exact ih (find_none_mapUpdate h k1 _)

theorem find_none_evictFromMain {s : Shard K V} {k : K}
    (h : mapFind? s.entries k = none) :
    mapFind? s.evictFromMain.entries k = none := by
  induction s using Shard.evictFromMain.induct with
  | case1 x hq => rwa [evictFromMain_eq_nil hq]
  | case2 x k1 rest hq hf ih =>
    rw [evictFromMain_eq_skip hq hf]
    exact ih h
  | case3 x k1 rest hq e hf he =>
    rw [evictFromMain_eq_evict hq hf he]
    exact find_none_mapErase h k1
  | case4 x k1 rest hq e hf he ih =>
    rw [evictFromMain_eq_rotate hq hf he]
    exact ih (find_none_mapUpdate h k1 _)

theorem find_none_evict {s : Shard K V} {k : K}
    (h : mapFind? s.entries k = none) :
    mapFind? s.evict.entries k = none := by
  rw [Shard.evict]
  split
  · exact find_none_evictFromSmall h
  · exact find_none_evictFromMain h

theorem find_none_evictLoop {s : Shard K V} {k : K}
    (h : mapFind? s.entries k = none) :
    mapFind? s.evictLoop.entries k = none := by
  induction s using Shard.evictLoop.induct with
  | case1 x hg ih =>
    rw [evictLoop_eq_loop hg]
    exact ih (find_none_evict h)
  | case2 x hg =>
    rwa [evictLoop_eq_exit hg]

theorem WF_set {s : Shard K V} (h : s.WF)
    (hg1 : 1 ≤ s.smallCap) (hg2 : s.smallCap ≤ s.capacity)
    (k : K) (v : V) (exp : Int) : (s.set k v exp).WF := by
  rw [Shard.set]
  cases hf : mapFind? s.entries k with
  | some e =>
    simp only
    obtain ⟨h1, h2, h3, h4⟩ := h
    refine ⟨?_, h2, ?_, ?_⟩
    · show ((mapUpdate s.entries k _).map Prod.fst).Perm _
      rw [mapUpdate_map_fst]
      exact h1
    · intro p hp
      obtain ⟨p1, p2⟩ := p
      rcases mem_mapUpdate hp with ⟨hk, e1, he1, hp2⟩ | ⟨hp1, hne⟩
      · simp only at hk hp2
        subst hk
        subst hp2
        simpa using h3 (p1, e1) he1
      · exact h3 (p1, p2) hp1
    · show (mapUpdate s.entries k _).length ≤ s.capacity
      rw [mapUpdate_length]
      exact h4
  | none =>
    have hw1 : s.evictLoop.WF := WF_evictLoop h
    obtain ⟨h1, h2, h3, _⟩ := hw1
    have hsize : s.evictLoop.small.length + s.evictLoop.main.length < s.capacity :=
      evictLoop_size_lt s hg1 hg2
    have hcap1 : s.evictLoop.capacity = s.capacity := (geom_evictLoop s).1
    have hk1 : mapFind? s.evictLoop.entries k = none := find_none_evictLoop hf
    have hknotin : k ∉ s.evictLoop.small ++ s.evictLoop.main := by
      intro hc
      have hmem : k ∈ s.evictLoop.keys := h1.mem_iff.mpr hc
      have hmem2 : k ∈ s.evictLoop.entries.map Prod.fst := by
        simpa [Shard.keys] using hmem
      exact (mapFind?_eq_none_iff.mp hk1) hmem2
    have hkns : k ∉ s.evictLoop.small := fun hc => hknotin (List.mem_append_left _ hc)
    have hlen : s.evictLoop.entries.length
        = s.evictLoop.small.length + s.evictLoop.main.length := by
      have := h1.length_eq
      simpa [Shard.keys] using this
    simp only
    split
    · refine ⟨?_, ?_, ?_, ?_⟩
      · show ((s.evictLoop.entries ++ [(k, (⟨v, exp, 0, false⟩ : Entry V))]).map Prod.fst).Perm
          (s.evictLoop.small ++ (s.evictLoop.main ++ [k]))
        simp only [List.map_append, List.map_cons, List.map_nil]
        rw [← List.append_assoc]
        exact List.Perm.append_right [k] h1
      · show (s.evictLoop.small ++ (s.evictLoop.main ++ [k])).Nodup
        rw [← List.append_assoc, List.nodup_append]
        refine ⟨h2, List.nodup_singleton k, ?_⟩
        intro a ha hb
        rw [List.mem_singleton] at hb
        subst hb
        exact hknotin ha
      · intro p hp
        obtain ⟨p1, p2⟩ := p
        rcases List.mem_append.mp hp with hp1 | hp1
        · exact h3 (p1, p2) hp1
        · rw [List.mem_singleton] at hp1
          obtain ⟨rfl, rfl⟩ : p1 = k ∧ p2 = ⟨v, exp, 0, false⟩ := by
            injection hp1 with ha hb
            exact ⟨ha, hb⟩
          simp [hkns]
      · show (s.evictLoop.entries ++ [(k, (⟨v, exp, 0, false⟩ : Entry V))]).length ≤ s.evictLoop.capacity
        rw [List.length_append]
        simp only [List.length_cons, List.length_nil]
        omega
    · refine ⟨?_, ?_, ?_, ?_⟩
      · show ((s.evictLoop.entries ++ [(k, (⟨v, exp, 0, true⟩ : Entry V))]).map Prod.fst).Perm
          ((s.evictLoop.small ++ [k]) ++ s.evictLoop.main)
        simp only [List.map_append, List.map_cons, List.map_nil]
        refine (List.Perm.append_right [k] h1).trans ?_
        exact perm_insert_small s.evictLoop.small s.evictLoop.main k
      · show ((s.evictLoop.small ++ [k]) ++ s.evictLoop.main).Nodup
        refine (perm_insert_small s.evictLoop.small s.evictLoop.main k).nodup ?_
        rw [List.nodup_append]
        refine ⟨h2, List.nodup_singleton k, ?_⟩
        intro a ha hb
        rw [List.mem_singleton] at hb
        subst hb
        exact hknotin ha
      · intro p hp
        obtain ⟨p1, p2⟩ := p
        rcases List.mem_append.mp hp with hp1 | hp1
        · have hiff := h3 (p1, p2) hp1
          have hp1k : p1 ≠ k := by
            rintro rfl
            exact (mapFind?_eq_none_iff.mp hk1) (List.mem_map_of_mem Prod.fst hp1)
          show (p2.inSmall = true ↔ p1 ∈ s.evictLoop.small ++ [k])
          rw [hiff]
          simp [List.mem_append, List.mem_singleton, hp1k]
        · rw [List.mem_singleton] at hp1
          obtain ⟨rfl, rfl⟩ : p1 = k ∧ p2 = ⟨v, exp, 0, true⟩ := by
            injection hp1 with ha hb
            exact ⟨ha, hb⟩
          simp
      · show (s.evictLoop.entries ++ [(k, (⟨v, exp, 0, true⟩ : Entry V))]).length ≤ s.evictLoop.capacity
        rw [List.length_append]
        simp only [List.length_cons, List.length_nil]
        omega

theorem WF_delete {s : Shard K V} (h : s.WF) (k : K) : (s.delete k).WF := by
  rw [Shard.delete]
  cases hf : mapFind? s.entries k with
  | none => exact h
  | some e =>
    simp only
    obtain ⟨h1, h2, h3, h4⟩ := h
    have hnds : s.small.Nodup := (List.nodup_append.mp h2).1
    have hndm : s.main.Nodup := (List.nodup_append.mp h2).2.1
    have hdisj := (List.nodup_append.mp h2).2.2
    have hloc := h3 (k, e) (mapFind?_mem hf)
    have hkmem : k ∈ s.small ++ s.main := by
      have : k ∈ s.keys := List.mem_map_of_mem Prod.fst (mapFind?_mem hf)
      exact h1.mem_iff.mp this
    split
    · rename_i hsm
      have hks : k ∈ s.small := hloc.mp hsm
      have hknm : k ∉ s.main := hdisj hks
      refine ⟨?_, ?_, ?_, ?_⟩
      · show ((mapErase s.entries k).map Prod.fst).Perm (removeKey s.small k ++ s.main)
        rw [mapErase_map_fst, removeKey_eq_filterNe_of_nodup hnds]
        have hp := filterNe_perm h1 k
        rw [filterNe_append, filterNe_eq_self_of_not_mem hknm] at hp
        exact hp
      · show (removeKey s.small k ++ s.main).Nodup
        rw [removeKey_eq_filterNe_of_nodup hnds, filterNe_eq_filter]
        exact (List.Sublist.append_right (List.filter_sublist _) s.main).nodup h2
      · intro p hp
        obtain ⟨hp1, hne⟩ := mem_mapErase_iff.mp hp
        have hiff := h3 p hp1
        rw [hiff, removeKey_eq_filterNe_of_nodup hnds]
        constructor
        · intro hmem
          exact mem_filterNe.mpr ⟨hmem, hne⟩
        · intro hmem
          exact (mem_filterNe.mp hmem).1
      · exact le_trans (mapErase_length_le _ _) h4
    · rename_i hsm
      have hks : k ∉ s.small := fun hc => hsm (hloc.mpr hc)
      have hkm : k ∈ s.main := by
        rcases List.mem_append.mp hkmem with hc | hc
        · exact absurd hc hks
        · exact hc
      refine ⟨?_, ?_, ?_, ?_⟩
      · show ((mapErase s.entries k).map Prod.fst).Perm (s.small ++ removeKey s.main k)
        rw [mapErase_map_fst, removeKey_eq_filterNe_of_nodup hndm]
        have hp := filterNe_perm h1 k
        rw [filterNe_append, filterNe_eq_self_of_not_mem hks] at hp
        exact hp
      · show (s.small ++ removeKey s.main k).Nodup
        rw [removeKey_eq_filterNe_of_nodup hndm, filterNe_eq_filter]
        exact (List.Sublist.append_left (List.filter_sublist _) s.small).nodup h2
      · intro p hp
        obtain ⟨hp1, _⟩ := mem_mapErase_iff.mp hp
        exact h3 p hp1
      · exact le_trans (mapErase_length_le _ _) h4

theorem WF_flush {s : Shard K V} (_ : s.WF) : (s.flush).2.WF := by
  refine ⟨?_, ?_, ?_, ?_⟩ <;> simp [Shard.flush, Shard.keys]

theorem filter_map_fst_agree {m : List (K × Entry V)} {Q : K × Entry V → Bool}
    {P : K → Bool} (hag : ∀ p ∈ m, Q p = P p.1) :
    (m.filter Q).map Prod.fst = (m.map Prod.fst).filter P := by
  induction m with
  | nil => rfl
  | cons q m ih =>
    have hq := hag q (List.mem_cons_self _ _)
    have ih2 := ih (fun p hp => hag p (List.mem_cons_of_mem _ hp))
    cases hb : P q.1 with
    | true => simp [List.filter_cons, hq, hb, ih2]
    | false => simp [List.filter_cons, hq, hb, ih2]

theorem WF_cleanup {s : Shard K V} (h : s.WF) (now : Int) : (s.cleanup now).WF := by
  obtain ⟨h1, h2, h3, h4⟩ := h
  have hnk : (s.entries.map Prod.fst).Nodup := (h1.nodup_iff).mpr h2
  have hag : ∀ p ∈ s.entries,
      (!(p.2.isExpired now)) = (!(expiredKey s.entries now p.1)) := by
    intro p hp
    obtain ⟨p1, p2⟩ := p
    have hfind : mapFind? s.entries p1 = some p2 := find_of_mem_of_nodup hnk hp
    simp [expiredKey, hfind]
  have hmapeq := filter_map_fst_agree (P := fun k1 => !(expiredKey s.entries now k1)) hag
  refine ⟨?_, ?_, ?_, ?_⟩
  · show ((s.entries.filter (fun q => !(q.2.isExpired now))).map Prod.fst).Perm
      ((s.small.filter (fun k1 => !(expiredKey s.entries now k1)))
        ++ (s.main.filter (fun k1 => !(expiredKey s.entries now k1))))
    rw [hmapeq]
    have hp := h1.filter (fun k1 => !(expiredKey s.entries now k1))
    rw [List.filter_append] at hp
    exact hp
  · show ((s.small.filter (fun k1 => !(expiredKey s.entries now k1)))
      ++ (s.main.filter (fun k1 => !(expiredKey s.entries now k1)))).Nodup
    rw [← List.filter_append]
    exact h2.filter _
  · intro p hp
    obtain ⟨p1, p2⟩ := p
    have hp2 : (p1, p2) ∈ s.entries.filter (fun q => !(q.2.isExpired now)) := hp
    show p2.inSmall = true ↔ p1 ∈ s.small.filter (fun k1 => !(expiredKey s.entries now k1))
    rw [List.mem_filter] at hp2
    obtain ⟨hp1, hq⟩ := hp2
    have hiff := h3 (p1, p2) hp1
    have hP : (!(expiredKey s.entries now p1)) = true := by
      rw [← hag (p1, p2) hp1]
      exact hq
    rw [hiff]
    constructor
    · intro hmem
      exact List.mem_filter.mpr ⟨hmem, hP⟩
    · intro hmem
      exact (List.mem_filter.mp hmem).1
  · exact le_trans (List.length_filter_le _ _) h4

/-- One completed operation on a shard, as named by the spec (§8): get,
set, delete, one eviction step, cleanup, flush. -/
inductive ShardOp (K V : Type) where
  | get (now : Int) (k : K)
  | set (k : K) (v : V) (expiryNano : Int)
  | del (k : K)
  | evictStep
  | cleanup (now : Int)
  | flush

/-- Application of one operation to a shard. -/
def applyShardOp (s : Shard K V) : ShardOp K V → Shard K V
  | .get now k => (s.get now k).2
  | .set k v e => s.set k v e
  | .del k => s.delete k
  | .evictStep => s.evict
  | .cleanup now => s.cleanup now
  | .flush => (s.flush).2

theorem WF_applyShardOp {s : Shard K V} (h : s.WF)
    (hg1 : 1 ≤ s.smallCap) (hg2 : s.smallCap ≤ s.capacity) (op : ShardOp K V) :
    (applyShardOp s op).WF := by
  cases op with
  | get now k => exact WF_get h now k
  | set k v e => exact WF_set h hg1 hg2 k v e
  | del k => exact WF_delete h k
  | evictStep => exact WF_evict h
  | cleanup now => exact WF_cleanup h now
  | flush => exact WF_flush h

/-- Element of a list at an index, `none` out of range. -/
def nth? : List α → Nat → Option α
  | [], _ => none
  | x :: _, 0 => some x
  | _ :: xs, n + 1 => nth? xs n

/-- In-place update of the element of a list at an index (no-op out of
range). -/
def listModify : List α → Nat → (α → α) → List α
  | [], _, _ => []
  | x :: xs, 0, f => f x :: xs
  | x :: xs, n + 1, f => x :: listModify xs n f

theorem listModify_length (l : List α) (i : Nat) (f : α → α) :
    (listModify l i f).length = l.length := by
  induction l generalizing i with
  | nil => rfl
  | cons x xs ih =>
    cases i with
    | zero => rfl
    | succ n => simp [listModify, ih]

theorem nth?_listModify_self (l : List α) (i : Nat) (f : α → α) :
    nth? (listModify l i f) i = (nth? l i).map f := by
  induction l generalizing i with
  | nil => rfl
  | cons x xs ih =>
    cases i with
    | zero => rfl
    | succ n => simpa [listModify, nth?] using ih n

theorem nth?_isSome_of_lt {l : List α} {i : Nat} (h : i < l.length) :
    ∃ x, nth? l i = some x := by
  induction l generalizing i with
  | nil => simp at h
  | cons x xs ih =>
    cases i with
    | zero => exact ⟨x, rfl⟩
    | succ n => exact ih (Nat.lt_of_succ_lt_succ h)

theorem mem_of_nth? {l : List α} {i : Nat} {x : α} (h : nth? l i = some x) :
    x ∈ l := by
  induction l generalizing i with
  | nil => simp [nth?] at h
  | cons y ys ih =>
    cases i with
    | zero =>
      obtain rfl : y = x := by injection h
      exact List.mem_cons_self _ _
    | succ n => exact List.mem_cons_of_mem _ (ih h)

theorem mem_listModify {l : List α} {i : Nat} {f : α → α} {x : α}
    (h : x ∈ listModify l i f) : x ∈ l ∨ ∃ y ∈ l, x = f y := by
  induction l generalizing i with
  | nil => simp [listModify] at h
  | cons y ys ih =>
    cases i with
    | zero =>
      rcases List.mem_cons.mp h with rfl | hx
      · exact Or.inr ⟨y, List.mem_cons_self _ _, rfl⟩
      · exact Or.inl (List.mem_cons_of_mem _ hx)
    | succ n =>
      rcases List.mem_cons.mp h with rfl | hx
      · exact Or.inl (List.mem_cons_self _ _)
      · rcases ih hx with hx1 | ⟨z, hz, hfz⟩
        · exact Or.inl (List.mem_cons_of_mem _ hx1)
        · exact Or.inr ⟨z, List.mem_cons_of_mem _ hz, hfz⟩

/-- Sharded S3-FIFO memory tier.  Source: the `s3fifo` struct of package
sfcache.  The key-type-specialized hash functions (`wyhashString`,
identity for integers, the `shardIndexSlow` fallback) are abstracted as
the pure function `hash`; routing is `hash(key) & shardMask` exactly as
in the source, and `newS3FIFO` establishes
`shards.length = shardMask + 1` (a power of two). -/
structure S3Fifo (K V : Type) where
  shards : List (Shard K V)
  shardMask : Nat
  hash : K → Nat

/-- Shard index of a key: `hash(key) & (numShards − 1)`. -/
def S3Fifo.shardIdx (c : S3Fifo K V) (k : K) : Nat :=
  c.hash k &&& c.shardMask

theorem shardIdx_lt {c : S3Fifo K V} (h : c.shards.length = c.shardMask + 1)
    (k : K) : c.shardIdx k < c.shards.length := by
  rw [h]
  exact Nat.lt_succ_of_le Nat.and_le_right

/-- Source: `s3fifo.get` — delegate to the shard of the key. -/
def S3Fifo.get (c : S3Fifo K V) (now : Int) (k : K) : Option V × S3Fifo K V :=
  ((nth? c.shards (c.shardIdx k)).bind (fun sh => (sh.get now k).1),
   { c with shards := listModify c.shards (c.shardIdx k) (fun sh => (sh.get now k).2) })

/-- Source: `s3fifo.set` — delegate to the shard of the key. -/
def S3Fifo.set (c : S3Fifo K V) (k : K) (v : V) (expiryNano : Int) : S3Fifo K V :=
  { c with shards := listModify c.shards (c.shardIdx k) (fun sh => sh.set k v expiryNano) }

/-- Source: `s3fifo.del` — delegate to the shard of the key. -/
def S3Fifo.del (c : S3Fifo K V) (k : K) : S3Fifo K V :=
  { c with shards := listModify c.shards (c.shardIdx k) (fun sh => sh.delete k) }

/-- Source: `s3fifo.len` — sum of the shard map sizes. -/
def S3Fifo.len (c : S3Fifo K V) : Nat :=
  (c.shards.map (fun sh => sh.entries.length)).sum

/-- Source: `s3fifo.flush` — flush every shard, summing the counts. -/
def S3Fifo.flush (c : S3Fifo K V) : Nat × S3Fifo K V :=
  ((c.shards.map (fun sh => (sh.flush).1)).sum,
   { c with shards := c.shards.map (fun sh => (sh.flush).2) })

/-- TTL-to-expiry-instant computation shared verbatim by
`MemoryCache.expiry` and `PersistentCache.expiry`, composed with
`timeToNano`: a non-positive TTL falls back to the default TTL; a
non-positive effective TTL means no expiry (instant 0); otherwise the
instant is now + ttl. -/
def expiryNanoGo (dflt ttl now : Int) : Int :=
  if ttl ≤ 0 then (if dflt ≤ 0 then 0 else now + dflt) else now + ttl

/-- Memory-only cache.  Source: `MemoryCache` — an s3fifo plus the
configured default TTL. -/
structure MemoryCacheM (K V : Type) where
  memory : S3Fifo K V
  defaultTTL : Int

/-- Source: `MemoryCache.Set` — store with the expiry computed by
`MemoryCache.expiry` (an omitted TTL argument is 0). -/
def MemoryCacheM.Set (c : MemoryCacheM K V) (now : Int) (k : K) (v : V)
    (ttl : Int) : MemoryCacheM K V :=
  { c with memory := c.memory.set k v (expiryNanoGo c.defaultTTL ttl now) }

/-- Source: `MemoryCache.Get`. -/
def MemoryCacheM.Get (c : MemoryCacheM K V) (now : Int) (k : K) :
    Option V × MemoryCacheM K V :=
  ((c.memory.get now k).1, { c with memory := (c.memory.get now k).2 })

/-- Source: `MemoryCache.Len`. -/
def MemoryCacheM.Len (c : MemoryCacheM K V) : Nat := c.memory.len

/-- Outcomes of the persistence-tier calls the coordinator makes
(`persist.Store`).  The claims only depend on each call's outcome, so a
store is its pure outcome table; `GetE` yields `(value, expiry-instant)`
when the key is found. -/
structure StoreM (K V : Type) where
  ValidateKey : K → Except String Unit
  GetE : K → Except String (Option (V × Int))
  SetE : K → V → Int → Except String Unit
  FlushE : Except String Nat

/-- Result triple of `PersistentCache.Get` — `(value, found, err)`.  A
`none` value stands for the zero value of V. -/
structure GetResult (V : Type) where
  value? : Option V
  found : Bool
  err : Option String
deriving DecidableEq

/-- Two-tier cache.  Source: `PersistentCache` — the persistence handle,
the s3fifo memory tier and the default TTL. -/
structure PersistentCacheM (K V : Type) where
  Store : StoreM K V
  memory : S3Fifo K V
  defaultTTL : Int

/-- Source: `PersistentCache.Get` — memory first; on miss validate the
key (invalid ⇒ error), then call the store: an I/O error is wrapped as
`persistence load:` and returned with found = false; a store hit is
promoted into the memory tier. -/
def PersistentCacheM.Get (c : PersistentCacheM K V) (now : Int) (k : K) :
    GetResult V × PersistentCacheM K V :=
  match c.memory.get now k with
  | (some v, m) => (⟨some v, true, none⟩, { c with memory := m })
  | (none, m) =>
    match c.Store.ValidateKey k with
    | .error e => (⟨none, false, some ("invalid key: " ++ e)⟩, { c with memory := m })
    | .ok _ =>
      match c.Store.GetE k with
      | .error e => (⟨none, false, some ("persistence load: " ++ e)⟩, { c with memory := m })
      | .ok none => (⟨none, false, none⟩, { c with memory := m })
      | .ok (some (v, exp)) => (⟨some v, true, none⟩, { c with memory := m.set k v exp })

/-- Source: `PersistentCache.Set` — compute the expiry, validate the key
(failure returns the validation error with memory untouched), ALWAYS
write to memory, then write to the store; a store failure is wrapped as
`persistence store failed:` and returned, with the memory write kept. -/
def PersistentCacheM.Set (c : PersistentCacheM K V) (now : Int) (k : K) (v : V)
    (ttl : Int) : Except String Unit × PersistentCacheM K V :=
  match c.Store.ValidateKey k with
  | .error e => (.error e, c)
  | .ok _ =>
    match c.Store.SetE k v (expiryNanoGo c.defaultTTL ttl now) with
    | .error e =>
      (.error ("persistence store failed: " ++ e),
       { c with memory := c.memory.set k v (expiryNanoGo c.defaultTTL ttl now) })
    | .ok _ =>
      (.ok (),
       { c with memory := c.memory.set k v (expiryNanoGo c.defaultTTL ttl now) })

/-- Source: `PersistentCache.Flush` — flush the memory tier first, then
the store; a store failure is wrapped as `persistence flush:` and
returned together with the memory-only count; the memory flush is not
rolled back. -/
def PersistentCacheM.Flush (c : PersistentCacheM K V) :
    (Nat × Option String) × PersistentCacheM K V :=
  match c.Store.FlushE with
  | .error e =>
    (((c.memory.flush).1, some ("persistence flush: " ++ e)),
     { c with memory := (c.memory.flush).2 })
  | .ok n =>
    (((c.memory.flush).1 + n, none),
     { c with memory := (c.memory.flush).2 })

/-- Source: `PersistentCache.Len` — the memory-tier entry count. -/
def PersistentCacheM.Len (c : PersistentCacheM K V) : Nat := c.memory.len

end Sfcache

namespace Bdcache

open Sfcache

variable {K : Type} [DecidableEq K] {V : Type}

/-- Cache entry of the bdcache s3fifo.  Source: `entry` in package bdcache
(`value`, `expiry` as a time.Time — modelled as its UnixNano value with 0
for the zero time —, an unbounded `freq` counter, and the `inSmall`
tag). -/
structure BEntry (V : Type) where
  value : V
  expiry : Int
  freq : Nat
  inSmall : Bool
deriving DecidableEq

/-- State of the bdcache s3fifo.  Source: the `s3fifo` struct of package
bdcache — a single unsharded instance with `items`, the `small`, `main`
and `ghost` queues (`container/list`, front oldest, modelled as key
lists; `ghostKeys` is the ghost list's membership) and the capacity
fields computed by `newS3FIFO`. -/
structure BCache (K V : Type) where
  capacity : Nat
  smallCap : Nat
  mainCap : Nat
  ghostCap : Nat
  items : List (K × BEntry V)
  small : List K
  main : List K
  ghost : List K

/-- Effective capacity of `newS3FIFO`: a non-positive request becomes
10000. -/
def bdNewCap (capacity : Nat) : Nat :=
  if capacity = 0 then 10000 else capacity

/-- Small-queue capacity of `newS3FIFO`: a tenth of capacity, minimum 1. -/
def bdNewSmallCap (cap : Nat) : Nat :=
  if cap / 10 < 1 then 1 else cap / 10

/-- Source: `newS3FIFO` of package bdcache. -/
def bdNew (capacity : Nat) : BCache K V :=
  { capacity := bdNewCap capacity,
    smallCap := bdNewSmallCap (bdNewCap capacity),
    mainCap := bdNewCap capacity - bdNewSmallCap (bdNewCap capacity),
    ghostCap := bdNewCap capacity,
    items := [], small := [], main := [], ghost := [] }

/-- Frequency of a key in a bdcache map, 0 when absent (termination
measure only). -/
def bFreqOf (m : List (K × BEntry V)) (k : K) : Nat :=
  match mapFind? m k with
  | some e => e.freq
  | none => 0

/-- Sum of bdcache frequencies over a key list. -/
def bFreqSum (m : List (K × BEntry V)) (l : List K) : Nat :=
  (l.map (bFreqOf m)).sum

theorem bFreqSum_cons (m : List (K × BEntry V)) (k : K) (l : List K) :
    bFreqSum m (k :: l) = bFreqOf m k + bFreqSum m l := by
  simp [bFreqSum]

theorem bFreqOf_eq_zero_of_none {m : List (K × BEntry V)} {k : K}
    (h : mapFind? m k = none) : bFreqOf m k = 0 := by
  simp [bFreqOf, h]

theorem bFreqOf_mapUpdate_le (m : List (K × BEntry V)) (k j : K)
    {f : BEntry V → BEntry V} (hf : ∀ x, (f x).freq ≤ x.freq) :
    bFreqOf (mapUpdate m k f) j ≤ bFreqOf m j := by
  by_cases hj : j = k
  · subst hj
    rw [bFreqOf, mapFind?_mapUpdate_self]
    cases h : mapFind? m j with
    | none => simp [bFreqOf, h]
    | some e => simpa [bFreqOf, h] using hf e
  · rw [bFreqOf, mapFind?_mapUpdate_ne m f hj, bFreqOf]

theorem bFreqSum_mapUpdate_le (m : List (K × BEntry V)) (k : K)
    {f : BEntry V → BEntry V} (hf : ∀ x, (f x).freq ≤ x.freq) (l : List K) :
    bFreqSum (mapUpdate m k f) l ≤ bFreqSum m l := by
  unfold bFreqSum
  exact List.sum_le_sum fun j _ => bFreqOf_mapUpdate_le m k j hf

theorem bFreqOf_mapUpdate_self_of_some {m : List (K × BEntry V)} {k : K}
    {e : BEntry V} (h : mapFind? m k = some e) (f : BEntry V → BEntry V) :
    bFreqOf (mapUpdate m k f) k = (f e).freq := by
  simp [bFreqOf, mapFind?_mapUpdate_self, h]

/-- Source: `s3fifo.get` of package bdcache — expired entries are misses
without mutation; a hit increments `freq` without any cap. -/
def BCache.get (c : BCache K V) (now : Int) (k : K) : Option V × BCache K V :=
  match mapFind? c.items k with
  | none => (none, c)
  | some e =>
    if e.expiry ≠ 0 ∧ e.expiry < now then (none, c)
    else
      (some e.value,
       { c with items := mapUpdate c.items k (fun x => { x with freq := x.freq + 1 }) })

/-- Source: `s3fifo.addToGhost` of package bdcache — when the ghost queue
is at capacity its oldest key is dropped (list front and `ghostKeys`
entry), then the key is pushed to the back.  The source would nil-deref
on an empty full ghost (`ghostCap = 0`), which `newS3FIFO` makes
impossible; the model then just pushes. -/
def BCache.addToGhost (c : BCache K V) (k : K) : BCache K V :=
  if c.ghostCap ≤ c.ghost.length then
    match c.ghost with
    | [] => { c with ghost := [k] }
    | _ :: rest => { c with ghost := rest ++ [k] }
  else { c with ghost := c.ghost ++ [k] }

/-- Loop body of `s3fifo.evictFromSmall` of package bdcache: the first
argument is the small queue being scanned — it equals `c.small` at every
call, so the recursion is exactly the source's `for c.small.Len() > 0`
loop, written structurally on the queue. -/
def BCache.evictFromSmallAux : List K → BCache K V → BCache K V
  | [], c => c
  | k :: rest, c =>
    match mapFind? c.items k with
    | none => BCache.evictFromSmallAux rest { c with small := rest }
    | some e =>
      if 0 < e.freq then
        BCache.evictFromSmallAux rest
          { c with small := rest, main := c.main ++ [k],
                   items := mapUpdate c.items k (fun x => { x with freq := 0, inSmall := false }) }
      else
        BCache.addToGhost { c with small := rest, items := mapErase c.items k } k

/-- Source: `s3fifo.evictFromSmall` of package bdcache — pop the oldest
small entry; frequency > 0 promotes it to main with frequency reset
and the scan continues; otherwise it is evicted into the ghost queue. -/
def BCache.evictFromSmall (c : BCache K V) : BCache K V :=
  BCache.evictFromSmallAux c.small c

/-- Loop body of `s3fifo.evictFromMain` of package bdcache, with an
explicit iteration bound: every iteration either returns or strictly
decreases the sum of the main-queue frequencies plus the queue length,
so the bound `evictFromMain` passes (that sum + 1) is never exhausted
and the function equals the source's `for c.main.Len() > 0` loop. -/
def BCache.evictFromMainAux : Nat → BCache K V → BCache K V
  | 0, c => c
  | fuel + 1, c =>
    match c.main with
    | [] => c
    | k :: rest =>
      match mapFind? c.items k with
      | none => BCache.evictFromMainAux fuel { c with main := rest }
      | some e =>
        if 0 < e.freq then
          BCache.evictFromMainAux fuel
            { c with main := rest ++ [k],
                     items := mapUpdate c.items k (fun x => { x with freq := x.freq - 1 }) }
        else
          BCache.addToGhost { c with main := rest, items := mapErase c.items k } k

/-- Source: `s3fifo.evictFromMain` of package bdcache — pop the oldest
main entry; frequency > 0 gets a second chance (decrement, push back);
otherwise the entry is evicted AND its key is added to the ghost queue
(unlike the sfcache shard, which does not touch the ghost here). -/
def BCache.evictFromMain (c : BCache K V) : BCache K V :=
  BCache.evictFromMainAux (bFreqSum c.items c.main + c.main.length + 1) c

/-- Source: `s3fifo.evict` of package bdcache — evict from small whenever
the small queue is non-empty (note: not the `smallCap` threshold the
sfcache shard uses), otherwise from main. -/
def BCache.evict (c : BCache K V) : BCache K V :=
  if 0 < c.small.length then c.evictFromSmall else c.evictFromMain

/-- One eviction performed by `set` when the item count has reached
capacity. -/
def bdMaybeEvict (c : BCache K V) : BCache K V :=
  if c.capacity ≤ c.items.length then c.evict else c

/-- Queue-and-map insertion at the tail of `set` for a new key. -/
def bdInsert (c : BCache K V) (k : K) (v : V) (expiry : Int)
    (intoSmall : Bool) : BCache K V :=
  if intoSmall then
    { bdMaybeEvict c with
        small := (bdMaybeEvict c).small ++ [k],
        items := (bdMaybeEvict c).items ++ [(k, ⟨v, expiry, 0, true⟩)] }
  else
    { bdMaybeEvict c with
        main := (bdMaybeEvict c).main ++ [k],
        items := (bdMaybeEvict c).items ++ [(k, ⟨v, expiry, 0, false⟩)] }

/-- Source: `s3fifo.set` of package bdcache — an existing entry has value
and expiry updated in place AND its frequency incremented; a new key
found in the ghost queue is REMOVED from the ghost (`ghost.Remove`,
`delete(ghostKeys, key)`) and admitted directly to main; otherwise it is
admitted to small; one eviction runs first when at capacity. -/
def BCache.set (c : BCache K V) (k : K) (v : V) (expiry : Int) : BCache K V :=
  match mapFind? c.items k with
  | some _ =>
    { c with items :=
        mapUpdate c.items k (fun x => { x with value := v, expiry := expiry, freq := x.freq + 1 }) }
  | none =>
    if memKey c.ghost k then
      bdInsert { c with ghost := removeKey c.ghost k } k v expiry false
    else
      bdInsert c k v expiry true

/-- Source: `s3fifo.delete` of package bdcache. -/
def BCache.delete (c : BCache K V) (k : K) : BCache K V :=
  match mapFind? c.items k with
  | none => c
  | some e =>
    if e.inSmall then
      { c with small := removeKey c.small k, items := mapErase c.items k }
    else
      { c with main := removeKey c.main k, items := mapErase c.items k }

/-- Source: `s3fifo.len` of package bdcache. -/
def BCache.len (c : BCache K V) : Nat := c.items.length

/-- TTL-to-expiry computation inlined in `Cache.Set` of package bdcache:
`if ttl > 0 → now+ttl; else if DefaultTTL > 0 → now+DefaultTTL; else
zero time`. -/
def bdExpiry (dflt ttl now : Int) : Int :=
  if 0 < ttl then now + ttl else if 0 < dflt then now + dflt else 0

/-- Two-tier bdcache coordinator.  Source: the `Cache` struct of
cache.go — the memory s3fifo, an optional persistence layer (its call
outcomes), and the options record's DefaultTTL. -/
structure BdCacheM (K V : Type) where
  memory : BCache K V
  persist? : Option (StoreM K V)
  defaultTTL : Int

/-- Source: `Cache.Get` of cache.go — memory first; without persistence a
miss; an invalid key is logged and returned as a plain miss; a
persistence Load error is logged and returned as a plain miss (graceful
degradation — `err` is nil on every miss path); a persistence hit is
promoted into memory. -/
def BdCacheM.Get (c : BdCacheM K V) (now : Int) (k : K) :
    GetResult V × BdCacheM K V :=
  match c.memory.get now k with
  | (some v, m) => (⟨some v, true, none⟩, { c with memory := m })
  | (none, m) =>
    match c.persist? with
    | none => (⟨none, false, none⟩, { c with memory := m })
    | some st =>
      match st.ValidateKey k with
      | .error _ => (⟨none, false, none⟩, { c with memory := m })
      | .ok _ =>
        match st.GetE k with
        | .error _ => (⟨none, false, none⟩, { c with memory := m })
        | .ok none => (⟨none, false, none⟩, { c with memory := m })
        | .ok (some (v, exp)) => (⟨some v, true, none⟩, { c with memory := m.set k v exp })

/-- Source: `Cache.Set` of cache.go — compute the expiry; with
persistence present validate the key first (failure returned, memory
untouched); ALWAYS write memory; then write persistence, wrapping a
failure as `persistence store failed:` without rolling back memory. -/
def BdCacheM.Set (c : BdCacheM K V) (now : Int) (k : K) (v : V) (ttl : Int) :
    Except String Unit × BdCacheM K V :=
  match c.persist? with
  | none =>
    (.ok (), { c with memory := c.memory.set k v (bdExpiry c.defaultTTL ttl now) })
  | some st =>
    match st.ValidateKey k with
    | .error e => (.error e, c)
    | .ok _ =>
      match st.SetE k v (bdExpiry c.defaultTTL ttl now) with
      | .error e =>
        (.error ("persistence store failed: " ++ e),
         { c with memory := c.memory.set k v (bdExpiry c.defaultTTL ttl now) })
      | .ok _ =>
        (.ok (), { c with memory := c.memory.set k v (bdExpiry c.defaultTTL ttl now) })

end Bdcache

namespace Sfcache

variable {K : Type} [DecidableEq K] {V : Type}

theorem memKey_insertKeySet_self (l : List K) (k : K) :
    memKey (insertKeySet l k) k = true := by
  rw [insertKeySet]
  split
  · assumption
  · simp [memKey]

theorem addToGhost_mem_self (s : Shard K V) (k : K) :
    (memKey (s.addToGhost k).ghostActive k || memKey (s.addToGhost k).ghostAging k)
      = true := by
  rw [Shard.addToGhost]
  split
  · show (memKey ([] : List K) k || memKey (insertKeySet s.ghostActive k) k) = true
    simp [memKey, memKey_insertKeySet_self]
  · show (memKey (insertKeySet s.ghostActive k) k || memKey s.ghostAging k) = true
    simp [memKey_insertKeySet_self]

/-- Round trip at the shard level: after `set` with no-expiry instant 0,
`get` finds the value, whatever the prior state. -/
theorem shard_set_zero_get (s : Shard K V) (k : K) (v : V) (now2 : Int) :
    ((s.set k v 0).get now2 k).1 = some v := by
  rw [Shard.set]
  cases hf : mapFind? s.entries k with
  | some e =>
    simp only
    have hf2 : mapFind? (mapUpdate s.entries k
        (fun x => { x with value := v, expiryNano := 0 })) k
        = some { e with value := v, expiryNano := 0 } := by
      rw [mapFind?_mapUpdate_self, hf]
      rfl
    rw [Shard.get]
    simp [hf2]
  | none =>
    simp only
    split
    · have hf2 : mapFind? (s.evictLoop.entries ++ [(k, (⟨v, 0, 0, false⟩ : Entry V))]) k
          = some ⟨v, 0, 0, false⟩ := by
        rw [mapFind?_append_of_none (find_none_evictLoop hf)]
        simp [mapFind?]
      rw [Shard.get]
      simp [hf2]
    · have hf2 : mapFind? (s.evictLoop.entries ++ [(k, (⟨v, 0, 0, true⟩ : Entry V))]) k
          = some ⟨v, 0, 0, true⟩ := by
        rw [mapFind?_append_of_none (find_none_evictLoop hf)]
        simp [mapFind?]
      rw [Shard.get]
      simp [hf2]

/-- Round trip at the s3fifo level, provided the routing invariant of
`newS3FIFO` (`numShards = shardMask + 1`). -/
theorem s3fifo_set_zero_get {c : S3Fifo K V}
    (hlen : c.shards.length = c.shardMask + 1) (k : K) (v : V) (now2 : Int) :
    ((c.set k v 0).get now2 k).1 = some v := by
  rw [S3Fifo.set, S3Fifo.get]
  simp only
  show ((nth? (listModify c.shards (c.shardIdx k) (fun sh => sh.set k v 0))
      (c.shardIdx k)).bind (fun sh => (sh.get now2 k).1)) = some v
  rw [nth?_listModify_self]
  obtain ⟨sh, hsh⟩ := nth?_isSome_of_lt (shardIdx_lt hlen k)
  rw [hsh]
  simpa using shard_set_zero_get sh k v now2

theorem s3fifo_set_shards_length (c : S3Fifo K V) (k : K) (v : V) (e : Int) :
    (c.set k v e).shards.length = c.shards.length := by
  rw [S3Fifo.set]
  exact listModify_length _ _ _

/-- Reduction of `PersistentCache.Get` on a memory hit. -/
theorem pget_memhit {c : PersistentCacheM K V} {now : Int} {k : K} {v : V}
    (h : (c.memory.get now k).1 = some v) :
    (c.Get now k).1 = ⟨some v, true, none⟩ := by
  rw [PersistentCacheM.Get]
  split
  · rename_i v1 m heq
    have h1 : (c.memory.get now k).1 = some v1 := by rw [heq]
    rw [h] at h1
    obtain rfl : v = v1 := by injection h1
    rfl
  · rename_i m heq
    have h1 : (c.memory.get now k).1 = none := by rw [heq]
    rw [h] at h1
    exact Option.noConfusion h1

theorem sum_map_zero (l : List α) : (l.map (fun _ => (0 : Nat))).sum = 0 := by
  induction l with
  | nil => rfl
  | cons x xs ih => simp [ih]

theorem s3fifo_flush_count (c : S3Fifo K V) : (c.flush).1 = c.len := by
  rw [S3Fifo.flush, S3Fifo.len]
  show (c.shards.map (fun sh => (sh.flush).1)).sum = _
  have heq : c.shards.map (fun sh => (sh.flush).1)
      = c.shards.map (fun sh => sh.entries.length) := by
    apply List.map_congr_left
    intro sh _
    rfl
  rw [heq]

theorem s3fifo_flush_len (c : S3Fifo K V) : ((c.flush).2).len = 0 := by
  rw [S3Fifo.flush, S3Fifo.len]
  simp only [List.map_map]
  show ((c.shards.map (fun sh => (((sh.flush).2).entries).length)).sum) = 0
  have : (c.shards.map (fun sh => (((sh.flush).2).entries).length))
      = c.shards.map (fun _ => 0) := by
    apply List.map_congr_left
    intro sh _
    rfl
  rw [this, sum_map_zero]

end Sfcache

open Sfcache Bdcache

/-- C1: Round trip — for every key k and value v, in a memory-only cache
with no default TTL configured, Set(k, v, ttl = 0) immediately followed
by Get(k) with no other operations interleaved returns (v, true): the
entry has no expiry instant, so it cannot have expired. -/
theorem claim_C1_roundtrip {K V : Type} [DecidableEq K] (c : MemoryCacheM K V)
    (hroute : c.memory.shards.length = c.memory.shardMask + 1)
    (httl : c.defaultTTL = 0) (now now2 : Int) (k : K) (v : V) :
    ((c.Set now k v 0).Get now2 k).1 = some v := by
  rw [MemoryCacheM.Set, MemoryCacheM.Get]
  simp only
  have hexp : expiryNanoGo c.defaultTTL 0 now = 0 := by
    rw [httl]
    simp [expiryNanoGo]
  rw [hexp]
  exact s3fifo_set_zero_get hroute k v now2

/-- Memory-only cache with one empty shard used to witness C1. -/
def c1cache : MemoryCacheM String Nat :=
  ⟨⟨[⟨[], [], [], [], [], 0, 4, 1, 4⟩], 0, fun _ => 0⟩, 0⟩

/-- Witness for C1: the concrete scenario S1 — set "answer" to 42 with
ttl 0, then get it back. -/
theorem claim_C1_roundtrip_witness :
    ((c1cache.Set 100 "answer" 42 0).Get 100 "answer").1 = some 42 :=
  claim_C1_roundtrip c1cache rfl rfl 100 100 "answer" 42

/-- C4: Shard size invariant — after every completed shard operation
(get, set, delete, eviction step, cleanup, flush) on a well-formed shard
with the constructor's queue geometry, the length of the small queue
plus the length of the main queue equals the number of keys in the
shard's map, and that number is at most the shard's capacity. -/
theorem claim_C4_shard_invariant {K V : Type} [DecidableEq K]
    (s : Sfcache.Shard K V) (op : Sfcache.ShardOp K V)
    (hg1 : 1 ≤ s.smallCap) (hg2 : s.smallCap ≤ s.capacity) (hwf : s.WF) :
    (applyShardOp s op).small.length + (applyShardOp s op).main.length
        = (applyShardOp s op).entries.length
    ∧ (applyShardOp s op).entries.length ≤ (applyShardOp s op).capacity := by
  have h := WF_applyShardOp hwf hg1 hg2 op
  exact ⟨h.size_eq.symm, h.size_le⟩

/-- Well-formed two-entry shard used to witness C4. -/
def c4shard : Sfcache.Shard String Nat :=
  ⟨[("a", ⟨1, 0, 0, true⟩), ("b", ⟨2, 0, 1, false⟩)], ["a"], ["b"], ["g"], [], 1, 4, 1, 4⟩

/-- Witness for C4: a set of a fresh key on a concrete well-formed
shard keeps the size invariant. -/
theorem claim_C4_shard_invariant_witness :
    (applyShardOp c4shard (Sfcache.ShardOp.set "c" 3 0)).small.length
        + (applyShardOp c4shard (Sfcache.ShardOp.set "c" 3 0)).main.length
        = (applyShardOp c4shard (Sfcache.ShardOp.set "c" 3 0)).entries.length
    ∧ (applyShardOp c4shard (Sfcache.ShardOp.set "c" 3 0)).entries.length
        ≤ (applyShardOp c4shard (Sfcache.ShardOp.set "c" 3 0)).capacity :=
  claim_C4_shard_invariant c4shard (Sfcache.ShardOp.set "c" 3 0)
    (by decide) (by decide) (by unfold Sfcache.Shard.WF; decide)

/-- C5: Eviction step, small branch — when an eviction step runs with
|small| ≥ small_capacity it pops the oldest small entry; if its
frequency is non-zero the frequency is reset to 0, the entry is marked
in-main and appended to the tail of main and the scan continues on the
remaining queue; otherwise the key is removed from the map and inserted
into the ghost set, ending the step. -/
theorem claim_C5_evict_small {K V : Type} [DecidableEq K]
    (s : Sfcache.Shard K V) (k : K) (rest : List K) (e : Sfcache.Entry V)
    (hq : s.small = k :: rest) (hcap : s.smallCap ≤ s.small.length)
    (hf : mapFind? s.entries k = some e) :
    (e.freq ≠ 0 → s.evict = Sfcache.Shard.evictFromSmall
        { s with small := rest, main := s.main ++ [k],
                 entries := mapUpdate s.entries k (fun x => { x with freq := 0, inSmall := false }) })
    ∧ (e.freq = 0 →
        s.evict = Sfcache.Shard.addToGhost
            { s with small := rest, entries := mapErase s.entries k } k
        ∧ mapFind? s.evict.entries k = none
        ∧ (memKey s.evict.ghostActive k || memKey s.evict.ghostAging k) = true) := by
  constructor
  · intro he
    rw [Shard.evict, if_pos hcap]
    exact evictFromSmall_eq_promote hq hf he
  · intro he
    have heq : s.evict
        = Shard.addToGhost { s with small := rest, entries := mapErase s.entries k } k := by
      rw [Shard.evict, if_pos hcap]
      exact evictFromSmall_eq_evict hq hf he
    refine ⟨heq, ?_, ?_⟩
    · rw [heq, addToGhost_entries]
      exact mapFind?_mapErase_self _ _
    · rw [heq]
      exact addToGhost_mem_self _ _

/-- Full shard used to witness C5 (small over capacity, cold head). -/
def c5shard : Sfcache.Shard String Nat :=
  ⟨[("a", ⟨1, 0, 0, true⟩)], ["a"], [], [], [], 0, 1, 1, 1⟩

/-- Witness for C5: the eviction step on the concrete shard ends by
evicting the cold head of small into the ghost set. -/
theorem claim_C5_evict_small_witness :
    c5shard.evict = Sfcache.Shard.addToGhost
        { c5shard with small := [], entries := mapErase c5shard.entries "a" } "a"
    ∧ mapFind? c5shard.evict.entries "a" = none
    ∧ (memKey c5shard.evict.ghostActive "a" || memKey c5shard.evict.ghostAging "a") = true :=
  (claim_C5_evict_small c5shard "a" [] ⟨1, 0, 0, true⟩ rfl (by decide) rfl).2 rfl

/-- C6 (amended): Eviction step, main branch — in the sfcache shard, when
an eviction step runs with |small| < small_capacity it pops the oldest
main entry; with frequency > 0 the frequency is decremented and the
entry re-appended to the tail of main (second chance, scan continuing);
otherwise the key is removed from the map and the ghost generations are
left untouched.  (The bdcache variant instead adds the evicted key to
its ghost queue — see the counterexample.) -/
theorem claim_C6_evict_main {K V : Type} [DecidableEq K]
    (s : Sfcache.Shard K V) (k : K) (rest : List K) (e : Sfcache.Entry V)
    (hq : s.main = k :: rest) (hcap : ¬ s.smallCap ≤ s.small.length)
    (hf : mapFind? s.entries k = some e) :
    (e.freq ≠ 0 → s.evict = Sfcache.Shard.evictFromMain
        { s with main := rest ++ [k],
                 entries := mapUpdate s.entries k (fun x => { x with freq := x.freq - 1 }) })
    ∧ (e.freq = 0 →
        s.evict = { s with main := rest, entries := mapErase s.entries k }
        ∧ mapFind? s.evict.entries k = none
        ∧ s.evict.ghostActive = s.ghostActive
        ∧ s.evict.ghostAging = s.ghostAging) := by
  constructor
  · intro he
    rw [Shard.evict, if_neg hcap]
    exact evictFromMain_eq_rotate hq hf he
  · intro he
    have heq : s.evict = { s with main := rest, entries := mapErase s.entries k } := by
      rw [Shard.evict, if_neg hcap]
      exact evictFromMain_eq_evict hq hf he
    refine ⟨heq, ?_, ?_, ?_⟩
    · rw [heq]
      exact mapFind?_mapErase_self _ _
    · rw [heq]
    · rw [heq]

/-- Shard with a cold main head and an under-threshold small queue, used
to witness C6. -/
def c6shard : Sfcache.Shard String Nat :=
  ⟨[("a", ⟨1, 0, 0, false⟩)], [], ["a"], [], [], 0, 4, 1, 4⟩

/-- Witness for C6: the eviction step on the concrete shard evicts the
cold main head without touching the ghost generations. -/
theorem claim_C6_evict_main_witness :
    c6shard.evict = { c6shard with main := [], entries := mapErase c6shard.entries "a" }
    ∧ mapFind? c6shard.evict.entries "a" = none
    ∧ c6shard.evict.ghostActive = c6shard.ghostActive
    ∧ c6shard.evict.ghostAging = c6shard.ghostAging :=
  (claim_C6_evict_main c6shard "a" [] ⟨1, 0, 0, false⟩ rfl (by decide) rfl).2 rfl

/-- bdcache state with both residents in main and the small queue empty,
reached from `bdNew 2` by set a,1; set b,2; set c,3; set a,9 (ghost
re-admission); delete c; set b,5 (ghost re-admission). -/
def c6pre : BCache String Nat :=
  ((((((bdNew 2).set "a" 1 0).set "b" 2 0).set "c" 3 0).set "a" 9 0).delete "c").set "b" 5 0

/-- Counterexample to C6 as stated: in the cited bdcache
`s3fifo.evictFromMain`, an eviction step running with
|small| = 0 < small_capacity evicts the cold oldest main entry "a" and
DOES add its key to the ghost queue, contradicting the claim that the
key is not added to the ghost set. -/
theorem claim_C6_counterexample :
    c6pre.small.length < c6pre.smallCap
    ∧ c6pre.capacity ≤ c6pre.items.length
    ∧ mapFind? c6pre.items "a" = some ⟨9, 0, 0, false⟩
    ∧ mapFind? (c6pre.evict).items "a" = none
    ∧ memKey (c6pre.evict).ghost "a" = true := by
  decide

/-- C7 (amended): Ghost admission — in the sfcache shard, a key absent
from the map but present in a ghost generation is inserted directly into
the main queue with frequency 0; the insertion itself does not remove
the ghost entry (the ghost generations after `set` are exactly those
after the capacity-eviction loop, and when no eviction is needed they
are exactly the ghost generations from before the call, so the entry
only ages out via the generation swap).  (The bdcache variant instead
removes the key from its ghost queue on this insertion — see the
counterexample.) -/
theorem claim_C7_ghost_admission {K V : Type} [DecidableEq K]
    (s : Sfcache.Shard K V) (k : K) (v : V) (exp : Int)
    (habs : mapFind? s.entries k = none)
    (hghost : (memKey s.ghostActive k || memKey s.ghostAging k) = true) :
    mapFind? (s.set k v exp).entries k = some ⟨v, exp, 0, false⟩
    ∧ (s.set k v exp).main = s.evictLoop.main ++ [k]
    ∧ (s.set k v exp).small = s.evictLoop.small
    ∧ (s.set k v exp).ghostActive = s.evictLoop.ghostActive
    ∧ (s.set k v exp).ghostAging = s.evictLoop.ghostAging
    ∧ (s.small.length + s.main.length < s.capacity →
        (s.set k v exp).ghostActive = s.ghostActive
        ∧ (s.set k v exp).ghostAging = s.ghostAging) := by
  rw [Shard.set]
  simp only [habs]
  rw [if_pos hghost]
  refine ⟨?_, rfl, rfl, rfl, rfl, ?_⟩
  · rw [mapFind?_append_of_none (find_none_evictLoop habs)]
    simp [mapFind?]
  · intro hsz
    have hx : s.evictLoop = s := by
      refine evictLoop_eq_exit ?_
      intro hc
      exact absurd hc.1 (by omega)
    rw [hx]
    exact ⟨rfl, rfl⟩

/-- Shard remembering "a" in its active ghost generation, used to
witness C7. -/
def c7shard : Sfcache.Shard String Nat :=
  ⟨[("b", ⟨2, 0, 0, true⟩)], ["b"], [], ["a"], [], 1, 4, 1, 4⟩

/-- Witness for C7: re-admission of the ghost-remembered key "a" goes
directly to main with frequency 0 and leaves the ghost generations
unchanged. -/
theorem claim_C7_ghost_admission_witness :
    mapFind? (c7shard.set "a" 9 0).entries "a" = some ⟨9, 0, 0, false⟩
    ∧ (c7shard.set "a" 9 0).ghostActive = c7shard.ghostActive
    ∧ (c7shard.set "a" 9 0).ghostAging = c7shard.ghostAging :=
  ⟨(claim_C7_ghost_admission c7shard "a" 9 0 rfl rfl).1,
   ((claim_C7_ghost_admission c7shard "a" 9 0 rfl rfl).2.2.2.2.2 (by decide)).1,
   ((claim_C7_ghost_admission c7shard "a" 9 0 rfl rfl).2.2.2.2.2 (by decide)).2⟩

/-- bdcache state whose ghost queue remembers the evicted key "a",
reached from `bdNew 2` by set a,1; set b,2; set c,3. -/
def c7pre : BCache String Nat :=
  (((bdNew 2).set "a" 1 0).set "b" 2 0).set "c" 3 0

/-- Counterexample to C7 as stated: in the cited bdcache `s3fifo.set`,
re-inserting the ghost-remembered key "a" DOES remove its ghost entry
(the new entry still goes directly to main), contradicting the claim
that the ghost entry is not removed by the insertion. -/
theorem claim_C7_counterexample :
    memKey c7pre.ghost "a" = true
    ∧ mapFind? c7pre.items "a" = none
    ∧ memKey (c7pre.set "a" 9 0).ghost "a" = false
    ∧ mapFind? (c7pre.set "a" 9 0).items "a" = some ⟨9, 0, 0, false⟩ := by
  decide

/-- C9 (amended): Update in place — in the sfcache shard, `set` on a
present key updates the entry's value and expiry instant in place and
does not move the entry between queues, and it does NOT bump the
frequency counter (the entry keeps its frequency unchanged; the bdcache
variant's `s3fifo.set` is the one that increments the frequency — see
the counterexample). -/
theorem claim_C9_update_in_place {K V : Type} [DecidableEq K]
    (s : Sfcache.Shard K V) (k : K) (e : Sfcache.Entry V) (v : V) (exp : Int)
    (hf : mapFind? s.entries k = some e) :
    mapFind? (s.set k v exp).entries k = some { e with value := v, expiryNano := exp }
    ∧ (s.set k v exp).small = s.small
    ∧ (s.set k v exp).main = s.main
    ∧ freqOf (s.set k v exp).entries k = e.freq := by
  rw [Shard.set]
  simp only [hf]
  refine ⟨?_, by trivial, by trivial, ?_⟩
  · rw [mapFind?_mapUpdate_self, hf]
    rfl
  · rw [freqOf, mapFind?_mapUpdate_self, hf]
    rfl

/-- Shard holding "a" with frequency 0, used for C9. -/
def c9shard : Sfcache.Shard String Nat :=
  ⟨[("a", ⟨1, 0, 0, true⟩)], ["a"], [], [], [], 0, 4, 1, 4⟩

/-- Witness for C9 (amended) at a concrete input. -/
theorem claim_C9_update_in_place_witness :
    mapFind? (c9shard.set "a" 2 7).entries "a" = some ⟨2, 7, 0, true⟩
    ∧ (c9shard.set "a" 2 7).small = c9shard.small
    ∧ (c9shard.set "a" 2 7).main = c9shard.main
    ∧ freqOf (c9shard.set "a" 2 7).entries "a" = (⟨1, 0, 0, true⟩ : Sfcache.Entry Nat).freq :=
  claim_C9_update_in_place c9shard "a" ⟨1, 0, 0, true⟩ 2 7 rfl

/-- Counterexample to C9 as stated: in the cited sfcache `shard.set`, a
re-set of the present key "a" leaves its frequency counter at 0 instead
of bumping it to 1. -/
theorem claim_C9_counterexample :
    freqOf c9shard.entries "a" = 0
    ∧ freqOf (c9shard.set "a" 2 0).entries "a" = 0
    ∧ ¬ freqOf (c9shard.set "a" 2 0).entries "a" = freqOf c9shard.entries "a" + 1 := by
  decide

/-- C2: Write-through resilience — when key validation succeeds but the
persistence tier's set fails, the synchronous Set returns an error
wrapping the persistence failure, yet the value was already written to
the memory tier and is not rolled back, so a subsequent Get in the same
process returns (v, true) with no error.  Stated for ttl = 0 with no
default TTL, the spec's S6 scenario, so the entry cannot expire. -/
theorem claim_C2_write_through {K V : Type} [DecidableEq K]
    (c : PersistentCacheM K V)
    (hroute : c.memory.shards.length = c.memory.shardMask + 1)
    (httl : c.defaultTTL = 0)
    (now now2 : Int) (k : K) (v : V) (e : String)
    (hval : c.Store.ValidateKey k = .ok ())
    (hset : c.Store.SetE k v (expiryNanoGo c.defaultTTL 0 now) = .error e) :
    (c.Set now k v 0).1 = .error ("persistence store failed: " ++ e)
    ∧ (((c.Set now k v 0).2).Get now2 k).1 = ⟨some v, true, none⟩ := by
  have hexp : expiryNanoGo c.defaultTTL 0 now = 0 := by
    rw [httl]
    simp [expiryNanoGo]
  have hsetr : c.Set now k v 0
      = (.error ("persistence store failed: " ++ e),
         { c with memory := c.memory.set k v (expiryNanoGo c.defaultTTL 0 now) }) := by
    rw [PersistentCacheM.Set]
    simp only [hval, hset]
  constructor
  · rw [hsetr]
  · rw [hsetr]
    apply pget_memhit
    show ((c.memory.set k v (expiryNanoGo c.defaultTTL 0 now)).get now2 k).1 = some v
    rw [hexp]
    exact s3fifo_set_zero_get hroute k v now2

/-- Persistence tier whose Set always fails, used to witness C2. -/
def c2store : StoreM String Nat :=
  ⟨fun _ => .ok (), fun _ => .error "down", fun _ _ _ => .error "disk full", .error "down"⟩

/-- Two-tier cache over a one-shard memory tier and the failing store. -/
def pc2 : PersistentCacheM String Nat :=
  ⟨c2store, ⟨[⟨[], [], [], [], [], 0, 4, 1, 4⟩], 0, fun _ => 0⟩, 0⟩

/-- Witness for C2: the spec's S6 scenario — set("k", 7, 0) errors while
get("k") still returns (7, true). -/
theorem claim_C2_write_through_witness :
    (pc2.Set 100 "k" 7 0).1 = .error ("persistence store failed: " ++ "disk full")
    ∧ (((pc2.Set 100 "k" 7 0).2).Get 100 "k").1 = ⟨some 7, true, none⟩ :=
  claim_C2_write_through pc2 rfl rfl 100 100 "k" 7 "disk full" rfl rfl

/-- C3 (amended): Graceful degradation on reads belongs to the bdcache
coordinator — when the memory tier misses and the persistence tier's
load fails with an I/O error, bdcache's `Cache.Get` returns a plain miss
(found = false, err = nil), indistinguishable from a cache miss.
(sfcache's `PersistentCache.Get` instead surfaces the wrapped error —
see the counterexample.) -/
theorem claim_C3_read_degradation {K V : Type} [DecidableEq K]
    (c : BdCacheM K V) (st : StoreM K V) (hp : c.persist? = some st)
    (now : Int) (k : K) (e : String)
    (hmiss : (c.memory.get now k).1 = none)
    (hval : st.ValidateKey k = .ok ())
    (hload : st.GetE k = .error e) :
    (c.Get now k).1 = ⟨none, false, none⟩ := by
  rw [BdCacheM.Get]
  split
  · rename_i v1 m heq
    have h1 : (c.memory.get now k).1 = some v1 := by rw [heq]
    rw [hmiss] at h1
    exact Option.noConfusion h1
  · rename_i m heq
    simp only [hp, hval, hload]

/-- Persistence layer whose load always fails with an I/O error. -/
def c3store : StoreM String Nat :=
  ⟨fun _ => .ok (), fun _ => .error "boom", fun _ _ _ => .ok (), .ok 0⟩

/-- bdcache coordinator over an empty memory tier and the failing
layer. -/
def bc3 : BdCacheM String Nat := ⟨bdNew 4, some c3store, 0⟩

/-- Witness for C3 (amended): the failing load is reported as a plain
miss by the bdcache coordinator. -/
theorem claim_C3_read_degradation_witness :
    (bc3.Get 0 "k").1 = ⟨none, false, none⟩ :=
  claim_C3_read_degradation bc3 c3store rfl 0 "k" "boom" rfl rfl rfl

/-- sfcache two-tier cache over an empty one-shard memory tier and the
failing store. -/
def pc3 : PersistentCacheM String Nat :=
  ⟨c3store, ⟨[⟨[], [], [], [], [], 0, 4, 1, 4⟩], 0, fun _ => 0⟩, 0⟩

/-- Counterexample to C3 as stated: the cited sfcache
`PersistentCache.Get` does surface the persistence failure — on a memory
miss with a failing store it returns found = false together with the
wrapped error, so the failure is distinguishable from a cache miss. -/
theorem claim_C3_counterexample :
    (pc3.Get 0 "k").1.found = false
    ∧ (pc3.Get 0 "k").1.err = some "persistence load: boom"
    ∧ ¬ (pc3.Get 0 "k").1.err = none := by
  decide

/-- C8 (amended): a negative TTL is not rejected by any of the set APIs;
it is treated exactly like ttl = 0 — use the configured default TTL if
positive, else no expiry — by the shared sfcache expiry computation
(`MemoryCache.expiry` / `PersistentCache.expiry` with `timeToNano`), by
the bdcache `Cache.Set` inline computation, and hence by
`MemoryCache.Set`, `PersistentCache.Set` and bdcache `Cache.Set`. -/
theorem claim_C8_negative_ttl {K V : Type} [DecidableEq K]
    (mc : MemoryCacheM K V) (pc : PersistentCacheM K V) (bc : BdCacheM K V)
    (dflt now ttl : Int) (k : K) (v : V) (httl : ttl < 0) :
    expiryNanoGo dflt ttl now = expiryNanoGo dflt 0 now
    ∧ bdExpiry dflt ttl now = bdExpiry dflt 0 now
    ∧ mc.Set now k v ttl = mc.Set now k v 0
    ∧ pc.Set now k v ttl = pc.Set now k v 0
    ∧ bc.Set now k v ttl = bc.Set now k v 0 := by
  have h1 : ∀ d : Int, expiryNanoGo d ttl now = expiryNanoGo d 0 now := by
    intro d
    rw [expiryNanoGo, expiryNanoGo, if_pos (le_of_lt httl), if_pos le_rfl]
  have h2 : ∀ d : Int, bdExpiry d ttl now = bdExpiry d 0 now := by
    intro d
    rw [bdExpiry, bdExpiry, if_neg (show ¬ 0 < ttl by omega),
      if_neg (show ¬ (0:Int) < 0 by omega)]
  refine ⟨h1 dflt, h2 dflt, ?_, ?_, ?_⟩
  · rw [MemoryCacheM.Set, MemoryCacheM.Set, h1]
  · simp only [PersistentCacheM.Set, h1]
  · simp only [BdCacheM.Set, h2]

/-- Memory-only cache used in the C8 witness. -/
def mc8 : MemoryCacheM String Nat := ⟨⟨[⟨[], [], [], [], [], 0, 4, 1, 4⟩], 0, fun _ => 0⟩, 0⟩

/-- Two-tier sfcache whose store always succeeds, used for C8. -/
def pc8 : PersistentCacheM String Nat :=
  ⟨⟨fun _ => .ok (), fun _ => .ok none, fun _ _ _ => .ok (), .ok 0⟩,
   ⟨[⟨[], [], [], [], [], 0, 4, 1, 4⟩], 0, fun _ => 0⟩, 0⟩

/-- bdcache memory-only coordinator used in the C8 witness. -/
def bc8 : BdCacheM String Nat := ⟨bdNew 4, none, 0⟩

/-- Witness for C8 (amended) at ttl = −5. -/
theorem claim_C8_negative_ttl_witness :
    expiryNanoGo 0 (-5) 100 = expiryNanoGo 0 0 100
    ∧ bdExpiry 0 (-5) 100 = bdExpiry 0 0 100
    ∧ mc8.Set 100 "k" 7 (-5) = mc8.Set 100 "k" 7 0
    ∧ pc8.Set 100 "k" 7 (-5) = pc8.Set 100 "k" 7 0
    ∧ bc8.Set 100 "k" 7 (-5) = bc8.Set 100 "k" 7 0 :=
  claim_C8_negative_ttl mc8 pc8 bc8 0 100 (-5) "k" 7 (by decide)

/-- Counterexample to C8 as stated: `PersistentCache.Set` with
ttl = −5 succeeds — it returns ok rather than an invalid-input error,
and the value is stored and readable. -/
theorem claim_C8_counterexample :
    (pc8.Set 100 "k" 7 (-5)).1 = .ok ()
    ∧ (((pc8.Set 100 "k" 7 (-5)).2).Get 100 "k").1 = ⟨some 7, true, none⟩ := by
  constructor
  · rfl
  · apply pget_memhit
    show ((pc8.memory.set "k" 7 (expiryNanoGo 0 (-5) 100)).get 100 "k").1 = some 7
    have hz : expiryNanoGo 0 (-5) 100 = 0 := by decide
    rw [hz]
    exact s3fifo_set_zero_get (c := pc8.memory) rfl "k" 7 100

/-- C10: Flush is not atomic on persistence failure — when the store's
flush fails, `PersistentCache.Flush` has already emptied every shard of
the memory tier; it returns the count of memory entries removed together
with the wrapped error, the memory flush is not rolled back, and a
subsequent Len() returns 0. -/
theorem claim_C10_flush_not_atomic {K V : Type} [DecidableEq K]
    (c : PersistentCacheM K V) (e : String)
    (hflush : c.Store.FlushE = .error e) :
    (c.Flush).1 = (c.memory.len, some ("persistence flush: " ++ e))
    ∧ ((c.Flush).2).Len = 0
    ∧ ∀ sh ∈ ((c.Flush).2).memory.shards,
        sh.entries = [] ∧ sh.small = [] ∧ sh.main = [] := by
  have hred : c.Flush = (((c.memory.flush).1, some ("persistence flush: " ++ e)),
      { c with memory := (c.memory.flush).2 }) := by
    rw [PersistentCacheM.Flush]
    simp only [hflush]
  refine ⟨?_, ?_, ?_⟩
  · rw [hred]
    show ((c.memory.flush).1, some ("persistence flush: " ++ e))
        = (c.memory.len, some ("persistence flush: " ++ e))
    rw [s3fifo_flush_count]
  · rw [hred]
    show ((c.memory.flush).2).len = 0
    exact s3fifo_flush_len c.memory
  · rw [hred]
    intro sh hsh
    have hsh2 : sh ∈ (c.memory.shards.map (fun x => (x.flush).2)) := hsh
    obtain ⟨x, _, rfl⟩ := List.mem_map.mp hsh2
    exact ⟨rfl, rfl, rfl⟩

/-- Two-tier sfcache with one non-empty shard and a store whose flush
always fails, used to witness C10. -/
def pc10 : PersistentCacheM String Nat :=
  ⟨⟨fun _ => .ok (), fun _ => .ok none, fun _ _ _ => .ok (), .error "io"⟩,
   ⟨[⟨[("a", ⟨1, 0, 0, true⟩)], ["a"], [], [], [], 0, 4, 1, 4⟩], 0, fun _ => 0⟩, 0⟩

/-- Witness for C10: the failing flush still empties memory and returns
the memory count with the wrapped error. -/
theorem claim_C10_flush_not_atomic_witness :
    (pc10.Flush).1 = (pc10.memory.len, some ("persistence flush: " ++ "io"))
    ∧ ((pc10.Flush).2).Len = 0 :=
  ⟨(claim_C10_flush_not_atomic pc10 "io" rfl).1,
   (claim_C10_flush_not_atomic pc10 "io" rfl).2.1⟩
